import Mathlib

/-! The ZIP container reader of libcdr, `src/lib/CDRZipStream.cpp`.

A shallow embedding of `CDRZipStreamImpl` (end-of-directory scan, central
directory reader, local header reader, header consistency check, detection and
payload extraction) together with theorems about it.

Machine integers are natural numbers; a byte is a `Fin 256`.  The input stream
is a list of bytes with an explicit cursor that is threaded through every
operation.  A C++ exception is the `Res.thrown` result, a null pointer is
`Option.none`.
-/

namespace libcdr

/-- One octet of the byte source. -/
abbrev Byte := Fin 256

/-! ## Byte source -/

/-- Modelled from the spec: the class `WPXInputStream` is declared outside
`src/`; this is the byte-source contract of the specification (read, seek, tell,
at-end over a finite source with one shared cursor).  `reads` and `seeks` count
the calls of `read` and `seek`, as a read-counting wrapper would.  A seek
outside the source stops at the nearest end of the source. -/
structure WPXInputStream where
  data : List Byte
  pos : Nat
  reads : Nat
  seeks : Nat
deriving DecidableEq, Repr

namespace WPXInputStream

/-- Modelled from the spec: `atEOS()`, true once the cursor is at the end. -/
def atEOS (s : WPXInputStream) : Bool := decide (s.data.length ≤ s.pos)

/-- Modelled from the spec: `tell()`, the current offset. -/
def tell (s : WPXInputStream) : Nat := s.pos

/-- Modelled from the spec: `read(numBytes, numBytesRead)`; returns the bytes
actually read (fewer than `n` at the end of the source) and advances the cursor
by that many. -/
def read (n : Nat) (s : WPXInputStream) : List Byte × WPXInputStream :=
  let bs := (s.data.drop s.pos).take n
  (bs, { s with pos := s.pos + bs.length, reads := s.reads + 1 })

/-- Modelled from the spec: `seek(offset, WPX_SEEK_SET)`. -/
def seekSet (offset : Nat) (s : WPXInputStream) : WPXInputStream :=
  { s with pos := min offset s.data.length, seeks := s.seeks + 1 }

/-- Modelled from the spec: `seek(offset, WPX_SEEK_CUR)` with a signed offset. -/
def seekCur (offset : Int) (s : WPXInputStream) : WPXInputStream :=
  { s with pos := min (Int.toNat ((s.pos : Int) + offset)) s.data.length,
           seeks := s.seeks + 1 }

end WPXInputStream

/-- Result of a primitive that may throw: a value and the stream after it, or
the stream at the point where the exception was thrown. -/
inductive Res (α : Type) where
  | ok : α → WPXInputStream → Res α
  | thrown : WPXInputStream → Res α
deriving DecidableEq, Repr

/-- Sequencing of stream operations; an exception skips the rest. -/
def Res.bind {α β : Type} (r : Res α) (f : α → WPXInputStream → Res β) : Res β :=
  match r with
  | .ok a s => f a s
  | .thrown s => .thrown s

/-- Modelled from the spec: `readU16` of `libcdr_utils` (not in `src/`), the
little-endian 16-bit read with short-read detection of the binary field reader. -/
def readU16 (s : WPXInputStream) : Res Nat :=
  if s.atEOS then .thrown s
  else
    match s.read 2 with
    | ([b0, b1], s1) => .ok (b0.val + 256 * b1.val) s1
    | (_, s1) => .thrown s1

/-- Modelled from the spec: `readU32` of `libcdr_utils` (not in `src/`), the
little-endian 32-bit read with short-read detection of the binary field reader. -/
def readU32 (s : WPXInputStream) : Res Nat :=
  if s.atEOS then .thrown s
  else
    match s.read 4 with
    | ([b0, b1, b2, b3], s1) =>
        .ok (b0.val + 256 * b1.val + 65536 * b2.val + 16777216 * b3.val) s1
    | (_, s1) => .thrown s1

/-! ## Records -/

/-- The struct `LocalFileHeader`. -/
structure LocalFileHeader where
  general_flag : Nat
  compression : Nat
  crc32 : Nat
  compressed_size : Nat
  uncompressed_size : Nat
  filename : List Byte
deriving DecidableEq, Repr

/-- The struct `CentralDirectoryEntry`. -/
structure CentralDirectoryEntry where
  general_flag : Nat
  compression : Nat
  crc32 : Nat
  compressed_size : Nat
  uncompressed_size : Nat
  offset : Nat
  filename : List Byte
deriving DecidableEq, Repr

/-- The struct `CentralDirectoryEnd`. -/
structure CentralDirectoryEnd where
  cdir_size : Nat
  cdir_offset : Nat
deriving DecidableEq, Repr

def CDIR_ENTRY_SIG : Nat := 0x02014b50
def LOC_FILE_HEADER_SIG : Nat := 0x04034b50
def CDIR_END_SIG : Nat := 0x06054b50

/-! ## The directory table `std::map<std::string, CentralDirectoryEntry>` -/

/-- The order of `std::string`: bytewise lexicographic, a proper initial
segment being smaller. -/
def strLt : List Byte → List Byte → Bool
  | [], [] => false
  | [], _ :: _ => true
  | _ :: _, [] => false
  | a :: as, b :: bs =>
      if a.val < b.val then true
      else if b.val < a.val then false
      else strLt as bs

/-- The table: key/value pairs in increasing key order. -/
abbrev CDirMap := List (List Byte × CentralDirectoryEntry)

/-- The assignment `m_cdir[k] = v`: insert, or replace the value of key `k`. -/
def mapInsert (k : List Byte) (v : CentralDirectoryEntry) : CDirMap → CDirMap
  | [] => [(k, v)]
  | (k1, v1) :: rest =>
      if strLt k k1 then (k, v) :: (k1, v1) :: rest
      else if strLt k1 k then (k1, v1) :: mapInsert k v rest
      else (k, v) :: rest

/-- The call `m_cdir.lower_bound(name)`: the first pair whose key is not less
than `name`; `none` is `m_cdir.end()`. -/
def lowerBound (m : CDirMap) (name : List Byte) :
    Option (List Byte × CentralDirectoryEntry) :=
  m.find? (fun kv => !strLt kv.1 name)

/-- The value a `const char *` denotes: the bytes before the first NUL. -/
def cString (name : List Byte) : List Byte := name.takeWhile (fun b => b != 0)

/-! ## The reader -/

/-- The struct `CDRZipStreamImpl`. -/
structure CDRZipStreamImpl where
  m_input : WPXInputStream
  m_cdir_offset : Nat
  m_cdir : CDirMap
  m_initialized : Bool
deriving DecidableEq, Repr

/-- The constructor `CDRZipStreamImpl(input)`. -/
def CDRZipStreamImpl.new (input : WPXInputStream) : CDRZipStreamImpl :=
  { m_input := input, m_cdir_offset := 0, m_cdir := [], m_initialized := false }

/-- The loop of `findCentralDirectoryEnd`.  `some (some p, s)`: the magic was
found and `m_cdir_offset` becomes `p`; `some (none, s)`: the function returns
false; `none`: the iteration budget `fuel` ran out. -/
def findLoop : Nat → WPXInputStream → Option (Option Nat × WPXInputStream)
  | 0, _ => none
  | fuel + 1, s =>
      if s.atEOS then some (none, s)
      else
        match readU32 s with
        | .thrown s1 => some (none, s1)
        | .ok signature s1 =>
            if signature = CDIR_END_SIG then
              let s2 := s1.seekCur (-4)
              some (some (s2.tell % 2 ^ 32), s2)
            else findLoop fuel (s1.seekCur (-3))

/-- The method `findCentralDirectoryEnd`.  The loop gets one iteration more
than the source has bytes (never exhausted, see `findLoop_fuel`). -/
def findCentralDirectoryEnd (z : CDRZipStreamImpl) : Bool × CDRZipStreamImpl :=
  let s := z.m_input.seekSet z.m_cdir_offset
  match findLoop (s.data.length + 1) s with
  | some (some p, s1) => (true, { z with m_input := s1, m_cdir_offset := p })
  | some (none, s1) => (false, { z with m_input := s1 })
  | none => (false, { z with m_input := s })

/-- The body of the try block of `readCentralDirectoryEnd`. -/
def readCentralDirectoryEndBody (s : WPXInputStream) : Res (Option CentralDirectoryEnd) :=
  (readU32 s).bind fun signature s =>
  if signature ≠ CDIR_END_SIG then .ok none s
  else
    let s := s.seekCur 8
    (readU32 s).bind fun cdir_size s =>
    (readU32 s).bind fun cdir_offset s =>
    (readU16 s).bind fun comment_size s =>
    let s := s.seekCur comment_size
    .ok (some { cdir_size := cdir_size, cdir_offset := cdir_offset }) s

/-- The method `readCentralDirectoryEnd`; `none` is the result false. -/
def readCentralDirectoryEnd (s : WPXInputStream) :
    Option CentralDirectoryEnd × WPXInputStream :=
  match readCentralDirectoryEndBody s with
  | .ok r s1 => (r, s1)
  | .thrown s1 => (none, s1)

/-- One directory entry of `readCentralDirectory`, after its signature. -/
def readCentralDirectoryEntry (s : WPXInputStream) : Res CentralDirectoryEntry :=
  let s := s.seekCur 4
  (readU16 s).bind fun general_flag s =>
  (readU16 s).bind fun compression s =>
  let s := s.seekCur 4
  (readU32 s).bind fun crc32 s =>
  (readU32 s).bind fun compressed_size s =>
  (readU32 s).bind fun uncompressed_size s =>
  (readU16 s).bind fun filename_size s =>
  (readU16 s).bind fun extra_field_size s =>
  (readU16 s).bind fun file_comment_size s =>
  let s := s.seekCur 8
  (readU32 s).bind fun offset s =>
  match s.read filename_size with
  | (buffer, s) =>
    let s := s.seekCur ((extra_field_size + file_comment_size : Nat) : Int)
    .ok { general_flag := general_flag, compression := compression, crc32 := crc32,
          compressed_size := compressed_size, uncompressed_size := uncompressed_size,
          offset := offset, filename := buffer } s

/-- The loop of `readCentralDirectory`: the result, the table and the stream;
`none`: the iteration budget ran out. -/
def readCentralDirectoryLoop :
    Nat → CDirMap → WPXInputStream → Option (Bool × CDirMap × WPXInputStream)
  | 0, _, _ => none
  | fuel + 1, m, s =>
      if s.atEOS then some (true, m, s)
      else
        match readU32 s with
        | .thrown s1 => some (false, m, s1)
        | .ok signature s1 =>
            if signature ≠ CDIR_ENTRY_SIG then
              (if m.isEmpty then some (false, m, s1) else some (true, m, s1))
            else
              match readCentralDirectoryEntry s1 with
              | .thrown s2 => some (false, m, s2)
              | .ok entry s2 => readCentralDirectoryLoop fuel (mapInsert entry.filename entry m) s2

/-- The method `readCentralDirectory`.  The loop gets one iteration more than
the source has bytes (never exhausted, see `readCentralDirectoryLoop_fuel`). -/
def readCentralDirectory (cdend : CentralDirectoryEnd) (z : CDRZipStreamImpl) :
    Bool × CDRZipStreamImpl :=
  let s := z.m_input.seekSet cdend.cdir_offset
  match readCentralDirectoryLoop (s.data.length + 1) z.m_cdir s with
  | some (r, m, s1) => (r, { z with m_input := s1, m_cdir := m })
  | none => (false, { z with m_input := s })

/-- The body of the try block of `readLocalFileHeader`. -/
def readLocalFileHeaderBody (s : WPXInputStream) : Res (Option LocalFileHeader) :=
  (readU32 s).bind fun signature s =>
  if signature ≠ LOC_FILE_HEADER_SIG then .ok none s
  else
    let s := s.seekCur 2
    (readU16 s).bind fun general_flag s =>
    (readU16 s).bind fun compression s =>
    let s := s.seekCur 4
    (readU32 s).bind fun crc32 s =>
    (readU32 s).bind fun compressed_size s =>
    (readU32 s).bind fun uncompressed_size s =>
    (readU16 s).bind fun filename_size s =>
    (readU16 s).bind fun extra_field_size s =>
    match s.read filename_size with
    | (buffer, s) =>
      let s := s.seekCur extra_field_size
      .ok (some { general_flag := general_flag, compression := compression, crc32 := crc32,
                  compressed_size := compressed_size,
                  uncompressed_size := uncompressed_size, filename := buffer }) s

/-- The method `readLocalFileHeader`; `none` is the result false. -/
def readLocalFileHeader (s : WPXInputStream) : Option LocalFileHeader × WPXInputStream :=
  match readLocalFileHeaderBody s with
  | .ok r s1 => (r, s1)
  | .thrown s1 => (none, s1)

/-- The method `areHeadersConsistent`. -/
def areHeadersConsistent (header : LocalFileHeader) (entry : CentralDirectoryEntry) : Bool :=
  if header.general_flag ≠ entry.general_flag then false
  else if header.compression ≠ entry.compression then false
  else if header.general_flag &&& 0x08 = 0 then
    if header.crc32 ≠ entry.crc32 then false
    else if header.compressed_size ≠ entry.compressed_size then false
    else if header.uncompressed_size ≠ entry.uncompressed_size then false
    else true
  else true

/-- The method `isZipStream`.  `none`: the code dereferences `m_cdir.begin()` of
an empty table, which has no defined result. -/
def isZipStream (z : CDRZipStreamImpl) : Option (Bool × CDRZipStreamImpl) :=
  if z.m_cdir_offset ≠ 0 then
    (if z.m_cdir.isEmpty then some (false, z) else some (true, z))
  else if z.m_initialized then some (false, z)
  else
    let z := { z with m_initialized := true }
    match findCentralDirectoryEnd z with
    | (false, z) => some (false, z)
    | (true, z) =>
      match readCentralDirectoryEnd z.m_input with
      | (none, s) => some (false, { z with m_input := s })
      | (some cdend, s) =>
        match readCentralDirectory cdend { z with m_input := s } with
        | (false, z) => some (false, z)
        | (true, z) =>
          match z.m_cdir with
          | [] => none
          | (_, entry) :: _ =>
            match readLocalFileHeader (z.m_input.seekSet entry.offset) with
            | (none, s) => some (false, { z with m_input := s })
            | (some header, s) =>
                some (areHeadersConsistent header entry, { z with m_input := s })

/-! ## Extraction -/

def Z_OK : Int := 0
def Z_STREAM_END : Int := 1
def Z_NEED_DICT : Int := 2
def Z_DATA_ERROR : Int := -3
def Z_MEM_ERROR : Int := -4
def Z_BUF_ERROR : Int := -5

/-- The zlib library, an external collaborator: the return code of
`inflateInit2(&strm, -MAX_WBITS)`, and `inflate(&strm, Z_FINISH)` as a function
of the input bytes and `avail_out` giving the return code and the bytes written
to `next_out`. -/
structure Zlib where
  inflateInit2 : Int
  inflate : List Byte → Nat → Int × List Byte

/-- Modelled from the spec: the class `CDRInternalStream` is declared outside
`src/`; a substream is the byte sequence it serves. -/
structure CDRInternalStream where
  m_buffer : List Byte
deriving DecidableEq, Repr

/-- The lookup at the head of `getSubstream`, up to
`CentralDirectoryEntry entry = iter->second`: the pair `*iter` the name resolves
to; `none` is one of the early `return 0`. -/
def findEntry (m : CDirMap) (name : List Byte) :
    Option (List Byte × CentralDirectoryEntry) :=
  if m.isEmpty then none
  else
    match lowerBound m (cString name) with
    | none => none
    | some (key, entry) =>
      if strLt (cString name) key && decide (key.take (cString name).length ≠ cString name) then
        none
      else some (key, entry)

/-- The method `getSubstream`; `none` in the first component is the null
pointer. -/
def getSubstream (zl : Zlib) (z : CDRZipStreamImpl) (name : List Byte) :
    Option CDRInternalStream × CDRZipStreamImpl :=
  match findEntry z.m_cdir name with
  | none => (none, z)
  | some (_, entry) =>
    match readLocalFileHeader (z.m_input.seekSet entry.offset) with
    | (none, s) => (none, { z with m_input := s })
    | (some header, s) =>
      if !areHeadersConsistent header entry then (none, { z with m_input := s })
      else if entry.compression = 0 then
        -- Modelled from the spec: a range of exactly compressed_size bytes
        -- starting at the current position
        match s.read entry.compressed_size with
        | (bytes, s1) => (some { m_buffer := bytes }, { z with m_input := s1 })
      else if zl.inflateInit2 ≠ Z_OK then (none, { z with m_input := s })
      else
        match s.read entry.compressed_size with
        | (compressedData, s1) =>
          if compressedData.length ≠ entry.compressed_size then
            (none, { z with m_input := s1 })
          else
            match zl.inflate compressedData entry.uncompressed_size with
            | (ret, written) =>
              if ret = Z_NEED_DICT ∨ ret = Z_DATA_ERROR ∨ ret = Z_MEM_ERROR then
                (none, { z with m_input := s1 })
              else
                (some { m_buffer :=
                          (written ++ List.replicate entry.uncompressed_size 0).take
                            entry.uncompressed_size },
                 { z with m_input := s1 })

/-- The method `CDRZipStream::getDocumentOLEStream`; the outer `none` is the
undefined result of `isZipStream`. -/
def getDocumentOLEStream (zl : Zlib) (z : CDRZipStreamImpl) (name : List Byte) :
    Option (Option CDRInternalStream × CDRZipStreamImpl) :=
  match isZipStream z with
  | none => none
  | some (false, z1) => some (none, z1)
  | some (true, z1) => some (getSubstream zl z1 name)

/-! ## Wire format of the archives used in the theorems -/

/-- The byte `v mod 256`. -/
def byteOf (v : Nat) : Byte := ⟨v % 256, Nat.mod_lt _ (by decide)⟩

/-- Little-endian encoding of a 16-bit field. -/
def le16 (v : Nat) : List Byte := [byteOf v, byteOf (v / 256)]

/-- Little-endian encoding of a 32-bit field. -/
def le32 (v : Nat) : List Byte :=
  [byteOf v, byteOf (v / 256), byteOf (v / 65536), byteOf (v / 16777216)]

/-- The fields of an archive that the reader skips: `lver` (2 bytes, version
needed) and `ltime` (4 bytes, time and date) of the local header; `cver`
(4 bytes, both versions), `ctime` (4 bytes) and `cattr` (8 bytes, disk number
and attributes) of the directory entry; `edisk` (8 bytes, disk numbers and entry
counts) of the end record. -/
structure Skipped where
  lver : List Byte
  ltime : List Byte
  cver : List Byte
  ctime : List Byte
  cattr : List Byte
  edisk : List Byte
deriving DecidableEq, Repr

/-- The lengths the skipped fields have in the format. -/
def Skipped.wellFormed (k : Skipped) : Prop :=
  k.lver.length = 2 ∧ k.ltime.length = 4 ∧ k.cver.length = 4 ∧ k.ctime.length = 4 ∧
  k.cattr.length = 8 ∧ k.edisk.length = 8

instance (k : Skipped) : Decidable k.wellFormed := by
  unfold Skipped.wellFormed; infer_instance

/-- A local file header as it lies in the archive, followed by its name and
extra field. -/
def encodeLocalFileHeader (lver ltime : List Byte) (h : LocalFileHeader)
    (extra : List Byte) : List Byte :=
  le32 LOC_FILE_HEADER_SIG ++ (lver ++ (le16 h.general_flag ++ (le16 h.compression ++
  (ltime ++ (le32 h.crc32 ++ (le32 h.compressed_size ++ (le32 h.uncompressed_size ++
  (le16 h.filename.length ++ (le16 extra.length ++ (h.filename ++ extra))))))))))

/-- The part of a directory entry after its signature, with name, extra field
and comment. -/
def encodeCentralDirectoryEntryBody (cver ctime cattr : List Byte)
    (e : CentralDirectoryEntry) (extra comment : List Byte) : List Byte :=
  cver ++ (le16 e.general_flag ++ (le16 e.compression ++ (ctime ++ (le32 e.crc32 ++
  (le32 e.compressed_size ++ (le32 e.uncompressed_size ++ (le16 e.filename.length ++
  (le16 extra.length ++ (le16 comment.length ++ (cattr ++ (le32 e.offset ++
  (e.filename ++ (extra ++ comment)))))))))))))

/-- A directory entry as it lies in the archive. -/
def encodeCentralDirectoryEntry (cver ctime cattr : List Byte)
    (e : CentralDirectoryEntry) (extra comment : List Byte) : List Byte :=
  le32 CDIR_ENTRY_SIG ++ encodeCentralDirectoryEntryBody cver ctime cattr e extra comment

/-- An end-of-directory record as it lies in the archive. -/
def encodeCentralDirectoryEnd (edisk : List Byte) (cdend : CentralDirectoryEnd)
    (comment : List Byte) : List Byte :=
  le32 CDIR_END_SIG ++ (edisk ++ (le32 cdend.cdir_size ++ (le32 cdend.cdir_offset ++
  (le16 comment.length ++ comment))))

/-- The directory entry of the single member of a minimal archive: local header
at offset 0. -/
def soleEntry (flag method crc usize : Nat) (name body : List Byte) :
    CentralDirectoryEntry :=
  { general_flag := flag, compression := method, crc32 := crc,
    compressed_size := body.length, uncompressed_size := usize, offset := 0,
    filename := name }

/-- The local header of the single member of a minimal archive. -/
def soleHeader (flag method crc usize : Nat) (name body : List Byte) : LocalFileHeader :=
  { general_flag := flag, compression := method, crc32 := crc,
    compressed_size := body.length, uncompressed_size := usize, filename := name }

/-- Offset of the directory of a minimal archive. -/
def soleDirOffset (name body : List Byte) : Nat := 30 + name.length + body.length

/-- Offset of the end record of a minimal archive. -/
def soleEndOffset (name body : List Byte) : Nat :=
  soleDirOffset name body + (46 + name.length)

/-- A minimal archive with one member: local file header, the member's bytes
`body` as they lie in the archive, one directory entry, the end record.  `method`
is the compression method and `usize` the uncompressed size recorded in both
headers. -/
def minimalArchive (k : Skipped) (flag method crc usize : Nat) (name body : List Byte) :
    List Byte :=
  encodeLocalFileHeader k.lver k.ltime (soleHeader flag method crc usize name body) [] ++
  (body ++
  (encodeCentralDirectoryEntry k.cver k.ctime k.cattr
      (soleEntry flag method crc usize name body) [] [] ++
   encodeCentralDirectoryEnd k.edisk
      { cdir_size := 46 + name.length, cdir_offset := soleDirOffset name body } []))

/-- The four bytes at offset `p` are the end-of-directory magic `50 4B 05 06`. -/
def endSigAt (bytes : List Byte) (p : Nat) : Bool :=
  (bytes.drop p).take 4 == le32 CDIR_END_SIG

/-- The usual skipped fields: version 2.0, no time stamp, no attributes, one
entry on disk 0. -/
def plainSkipped : Skipped :=
  { lver := le16 20, ltime := le32 0, cver := le16 20 ++ le16 20, ctime := le32 0,
    cattr := le32 0 ++ le32 0, edisk := le16 0 ++ le16 0 ++ le16 1 ++ le16 1 }

/-- The name "meta". -/
def metaName : List Byte := [0x6d, 0x65, 0x74, 0x61]

/-- The archive of the concrete scenario: one stored entry "meta" with payload
01 02 03 (CRC-32 0x55bc801d). -/
def metaArchive : List Byte :=
  minimalArchive plainSkipped 0 0 0x55bc801d 3 metaName [1, 2, 3]

/-- A stream over `bytes` with the cursor at the start. -/
def streamOf (bytes : List Byte) : WPXInputStream :=
  { data := bytes, pos := 0, reads := 0, seeks := 0 }

/-- A codec that is never reached on the stored path. -/
def noZlib : Zlib := { inflateInit2 := Z_MEM_ERROR, inflate := fun _ _ => (Z_DATA_ERROR, []) }

/-- The reference encoder at compression level 0: raw deflate with one final
stored block (for fewer than 65536 bytes), as `deflate` of zlib emits it. -/
def storedDeflate (original : List Byte) : List Byte :=
  [1] ++ (le16 original.length ++ (le16 (65535 - original.length) ++ original))

/-- A decoder for one final stored block of raw deflate, with the return codes
of `inflate(&strm, Z_FINISH)`. -/
def storedInflate (input : List Byte) (availOut : Nat) : Int × List Byte :=
  match input with
  | b :: l0 :: l1 :: n0 :: n1 :: data =>
      let len := l0.val + 256 * l1.val
      if b.val = 1 ∧ n0.val + 256 * n1.val + len = 65535 ∧ len ≤ data.length then
        (if len ≤ availOut then (Z_STREAM_END, data.take len)
         else (Z_BUF_ERROR, data.take availOut))
      else (Z_DATA_ERROR, [])
  | _ => (Z_DATA_ERROR, [])

/-- A codec that decodes stored blocks only. -/
def storedZlib : Zlib := { inflateInit2 := Z_OK, inflate := storedInflate }

/-- The bytes 50 4B 05 06, "PK\x05\x06" (CRC-32 0x0292e3ef). -/
def magicBytes : List Byte := [0x50, 0x4b, 0x05, 0x06]

/-- A well-formed minimal archive whose stored payload is `magicBytes`. -/
def magicPayloadArchive : List Byte :=
  minimalArchive plainSkipped 0 0 0x0292e3ef 4 metaName magicBytes

/-- A well-formed minimal archive whose deflated member is the level-0 encoding
of `magicBytes`. -/
def magicDeflateArchive : List Byte :=
  minimalArchive plainSkipped 0 8 0x0292e3ef 4 metaName (storedDeflate magicBytes)

/-- The archive of the second concrete scenario: `metaArchive` with the
compression field of the directory entry set to 1 while the local header says 0. -/
def metaArchiveBadMethod : List Byte :=
  encodeLocalFileHeader plainSkipped.lver plainSkipped.ltime
    (soleHeader 0 0 0x55bc801d 3 metaName [1, 2, 3]) [] ++
  ([1, 2, 3] ++
  (encodeCentralDirectoryEntry plainSkipped.cver plainSkipped.ctime plainSkipped.cattr
      (soleEntry 0 1 0x55bc801d 3 metaName [1, 2, 3]) [] [] ++
   encodeCentralDirectoryEnd plainSkipped.edisk
      { cdir_size := 50, cdir_offset := 37 } []))

/-- The results of `n` successive calls of `isZipStream` on a handle, first
call first, and the handle after them; `none` when one of the calls has no
defined result. -/
def isZipStreamCalls : Nat → CDRZipStreamImpl → Option (List Bool × CDRZipStreamImpl)
  | 0, z => some ([], z)
  | n + 1, z =>
      match isZipStream z with
      | none => none
      | some (b, z1) =>
          match isZipStreamCalls n z1 with
          | none => none
          | some (bs, z2) => some (b :: bs, z2)

/-- The invariant of `std::map`: keys strictly increasing. -/
def mapOrdered (m : CDirMap) : Prop := m.Pairwise (fun a b => strLt a.1 b.1 = true)

instance (m : CDirMap) : Decidable (mapOrdered m) := by
  unfold mapOrdered; infer_instance

/-- The name "root/x". -/
def rootXName : List Byte := [0x72, 0x6f, 0x6f, 0x74, 0x2f, 0x78]

/-- A table with the single key "root/x". -/
def rootTable : CDirMap := [(rootXName, soleEntry 0 0 0 0 rootXName [])]

/-- The handle after detection on `metaArchive`. -/
def metaHandle : CDRZipStreamImpl :=
  { m_input := { data := metaArchive, pos := 34, reads := 113, seeks := 100 },
    m_cdir_offset := 87,
    m_cdir := [(metaName, soleEntry 0 0 0x55bc801d 3 metaName [1, 2, 3])],
    m_initialized := true }

/-- The handle after detection on `metaArchiveBadMethod`. -/
def badMethodHandle : CDRZipStreamImpl :=
  { m_input := { data := metaArchiveBadMethod, pos := 34, reads := 113, seeks := 100 },
    m_cdir_offset := 87,
    m_cdir := [(metaName, soleEntry 0 1 0x55bc801d 3 metaName [1, 2, 3])],
    m_initialized := true }

/-- The archive `metaArchive` cut off before its end record. -/
def truncatedArchive : List Byte := metaArchive.take 87

/-! ## Predicates used in the theorems -/

/-- The states of a handle after any sequence of `isZipStream`, `getSubstream`
and `getDocumentOLEStream` calls that starts in the state `z1`. -/
inductive LaterState (z1 : CDRZipStreamImpl) : CDRZipStreamImpl → Prop where
  | start : LaterState z1 z1
  | afterIsZipStream {z z2 : CDRZipStreamImpl} {b : Bool} :
      LaterState z1 z → isZipStream z = some (b, z2) → LaterState z1 z2
  | afterGetSubstream {z : CDRZipStreamImpl} (zl : Zlib) (name : List Byte) :
      LaterState z1 z → LaterState z1 (getSubstream zl z name).2
  | afterGetDocumentOLEStream {z z2 : CDRZipStreamImpl} {zl : Zlib} {name : List Byte}
      {r : Option CDRInternalStream} :
      LaterState z1 z → getDocumentOLEStream zl z name = some (r, z2) → LaterState z1 z2


/-- The unread part of the source of `s` is `l`. -/
def Rem (s : WPXInputStream) (l : List Byte) : Prop :=
  s.data.drop s.pos = l ∧ s.pos ≤ s.data.length

/-- The fields of a local header fit their widths. -/
def LocalFileHeader.fits (h : LocalFileHeader) : Prop :=
  h.general_flag < 65536 ∧ h.compression < 65536 ∧ h.crc32 < 4294967296 ∧
  h.compressed_size < 4294967296 ∧ h.uncompressed_size < 4294967296 ∧
  h.filename.length < 65536

/-- The fields of a directory entry fit their widths. -/
def CentralDirectoryEntry.fits (e : CentralDirectoryEntry) : Prop :=
  e.general_flag < 65536 ∧ e.compression < 65536 ∧ e.crc32 < 4294967296 ∧
  e.compressed_size < 4294967296 ∧ e.uncompressed_size < 4294967296 ∧
  e.offset < 4294967296 ∧ e.filename.length < 65536

/-- The deflate path as the specification words it: read exactly
`compressed_size` bytes (a short read is a failure) and decode them with one
finish-oriented call into a fresh buffer of exactly `uncompressed_size` bytes;
need-dictionary, data and memory errors abort.  The compression method code is
not among its inputs. -/
def inflatePath (zl : Zlib) (compressed_size uncompressed_size : Nat) (s : WPXInputStream) :
    Option CDRInternalStream × WPXInputStream :=
  if zl.inflateInit2 ≠ Z_OK then (none, s)
  else
    match s.read compressed_size with
    | (compressedData, s1) =>
      if compressedData.length ≠ compressed_size then (none, s1)
      else
        match zl.inflate compressedData uncompressed_size with
        | (ret, written) =>
          if ret = Z_NEED_DICT ∨ ret = Z_DATA_ERROR ∨ ret = Z_MEM_ERROR then (none, s1)
          else
            (some { m_buffer :=
              (written ++ List.replicate uncompressed_size 0).take uncompressed_size }, s1)

/-- The handle after detection on a minimal archive with member `body`. -/
def minimalHandle (k : Skipped) (flag method crc usize : Nat) (name body : List Byte) :
    CDRZipStreamImpl :=
  { m_input := streamOf (minimalArchive k flag method crc usize name body),
    m_cdir_offset := soleEndOffset name body,
    m_cdir := [(name, soleEntry flag method crc usize name body)],
    m_initialized := true }

/-- A directory entry as it lies in an archive: the decoded entry, the fields
the reader skips (`cver`: 4 bytes of versions, `ctime`: 4 bytes of time and
date, `cattr`: 8 bytes of disk number and attributes), and the extra field and
comment that follow the name. -/
structure DirRecord where
  cver : List Byte
  ctime : List Byte
  cattr : List Byte
  entry : CentralDirectoryEntry
  extra : List Byte
  comment : List Byte
deriving DecidableEq, Repr

/-- The record is complete: skipped fields of the right length and every field
within its width. -/
def DirRecord.wellFormed (r : DirRecord) : Prop :=
  r.cver.length = 4 ∧ r.ctime.length = 4 ∧ r.cattr.length = 8 ∧ r.entry.fits ∧
  r.extra.length < 65536 ∧ r.comment.length < 65536

/-- The bytes of one directory record. -/
def DirRecord.encode (r : DirRecord) : List Byte :=
  encodeCentralDirectoryEntry r.cver r.ctime r.cattr r.entry r.extra r.comment

/-- The bytes of a directory: its records one after the other. -/
def encodeDirectory : List DirRecord → List Byte
  | [] => []
  | r :: rs => r.encode ++ encodeDirectory rs

/-- The table the specification describes: the entries inserted in file order,
keyed by name, a later entry replacing an earlier one of the same name. -/
def tableOf (es : List CentralDirectoryEntry) : CDirMap :=
  es.foldl (fun m e => mapInsert e.filename e m) []

/-- The value stored under the key `k`, `m_cdir.find(k)`. -/
def mapFind (m : CDirMap) (k : List Byte) : Option CentralDirectoryEntry :=
  (m.find? (fun kv => kv.1 == k)).map Prod.snd

/-- The last entry in file order that has the name `n`. -/
def lastNamed (es : List CentralDirectoryEntry) (n : List Byte) :
    Option CentralDirectoryEntry :=
  es.reverse.find? (fun e => e.filename == n)

instance (e : CentralDirectoryEntry) : Decidable e.fits := by
  unfold CentralDirectoryEntry.fits; infer_instance

instance (r : DirRecord) : Decidable r.wellFormed := by
  unfold DirRecord.wellFormed; infer_instance

/-- A directory record for the name `name` with local-header offset `offset`,
a one-byte extra field and a two-byte comment. -/
def sampleRecord (name : List Byte) (offset : Nat) : DirRecord :=
  { cver := plainSkipped.cver, ctime := plainSkipped.ctime, cattr := plainSkipped.cattr,
    entry := { general_flag := 0, compression := 0, crc32 := 0, compressed_size := 0,
               uncompressed_size := 0, offset := offset, filename := name },
    extra := [0xee], comment := [0xcc, 0xcc] }

/-- A directory with the names "b", "a", "b" in file order. -/
def sampleDirectory : List DirRecord :=
  [sampleRecord [0x62] 1, sampleRecord [0x61] 2, sampleRecord [0x62] 3]

/-- A source with one byte before `sampleDirectory`, then an end-of-directory
signature and two more bytes. -/
def sampleDirectorySource : List Byte :=
  [0xaa] ++ (encodeDirectory sampleDirectory ++ (le32 CDIR_END_SIG ++ [7, 7]))

/-- A source of `n` zero bytes followed by the end-of-directory magic. -/
def zerosThenMagic (n : Nat) : List Byte := List.replicate n 0 ++ le32 CDIR_END_SIG

/-- A source that is one end-of-directory record (no entries, no comment) whose
directory offset 22 is the end of the source. -/
def emptyDirectoryArchive : List Byte :=
  encodeCentralDirectoryEnd (le16 0 ++ le16 0 ++ le16 0 ++ le16 0)
    { cdir_size := 0, cdir_offset := 22 } []

/-- The "meta" archive with a second directory entry of which only the
signature is present before the end record: local header and payload at 0,
directory at 37, the lone signature at 87, end record at 91. -/
def brokenSecondEntryArchive : List Byte :=
  encodeLocalFileHeader plainSkipped.lver plainSkipped.ltime
    (soleHeader 0 0 0x55bc801d 3 metaName [1, 2, 3]) [] ++
  ([1, 2, 3] ++
  (encodeCentralDirectoryEntry plainSkipped.cver plainSkipped.ctime plainSkipped.cattr
      (soleEntry 0 0 0x55bc801d 3 metaName [1, 2, 3]) [] [] ++
  (le32 CDIR_ENTRY_SIG ++
   encodeCentralDirectoryEnd plainSkipped.edisk
      { cdir_size := 54, cdir_offset := 37 } [])))

/-- A source whose directory follows its end record and ends inside the name
field of its only entry: local header "meta" and payload at 0, end record at
37, directory entry at 59 with name length 4 of which the two bytes "me" are
present. -/
def truncatedNameArchive : List Byte :=
  encodeLocalFileHeader plainSkipped.lver plainSkipped.ltime
    (soleHeader 0 0 0x55bc801d 3 metaName [1, 2, 3]) [] ++
  ([1, 2, 3] ++
  (encodeCentralDirectoryEnd plainSkipped.edisk { cdir_size := 50, cdir_offset := 59 } [] ++
   (encodeCentralDirectoryEntry plainSkipped.cver plainSkipped.ctime plainSkipped.cattr
      (soleEntry 0 0 0x55bc801d 3 metaName [1, 2, 3]) [] []).take 48))

/-- A minimal archive whose member is the level-0 deflate encoding of 01 02 03
while both headers record the uncompressed size 2. -/
def shortOutputArchive : List Byte :=
  minimalArchive plainSkipped 0 8 0x55bc801d 2 metaName (storedDeflate [1, 2, 3])

/-- A local header for "meta" that declares four extra-field bytes, followed
by the name and only two extra-field bytes, where the source ends. -/
def shortExtraHeader : List Byte :=
  (encodeLocalFileHeader plainSkipped.lver plainSkipped.ltime
    (soleHeader 0 0 0x55bc801d 3 metaName [1, 2, 3]) [9, 9, 9, 9]).take 36

/-- A local header for "meta" of which the source holds the fixed part and only
the two name bytes "me". -/
def shortNameHeader : List Byte :=
  (encodeLocalFileHeader plainSkipped.lver plainSkipped.ltime
    (soleHeader 0 0 0x55bc801d 3 metaName [1, 2, 3]) []).take 32

/-- The fixed part of a local file header that declares `m` extra-field bytes,
followed by the name. -/
def encodeLocalFileHeaderFixed (lver ltime : List Byte) (h : LocalFileHeader) (m : Nat) :
    List Byte :=
  le32 LOC_FILE_HEADER_SIG ++ (lver ++ (le16 h.general_flag ++ (le16 h.compression ++
  (ltime ++ (le32 h.crc32 ++ (le32 h.compressed_size ++ (le32 h.uncompressed_size ++
  (le16 h.filename.length ++ (le16 m ++ h.filename)))))))))

/-! # Theorems -/

/-! ## Lemmas on the byte source -/


theorem Rem.length_eq {s : WPXInputStream} {l : List Byte} (h : Rem s l) :
    s.pos + l.length = s.data.length := by
  have h1 := congrArg List.length h.1
  simp only [List.length_drop] at h1
  have h2 := h.2
  omega

theorem rem_of_data {s : WPXInputStream} {p l : List Byte} (hd : s.data = p ++ l)
    (hp : s.pos = p.length) : Rem s l := by
  constructor
  · rw [hd, hp]; simp
  · rw [hd, hp]; simp

theorem rem_read {s : WPXInputStream} {bs l : List Byte} (h : Rem s (bs ++ l)) :
    (s.read bs.length).1 = bs ∧ (s.read bs.length).2.data = s.data ∧
    Rem (s.read bs.length).2 l := by
  have hlen := h.length_eq
  simp only [List.length_append] at hlen
  have htake : (s.data.drop s.pos).take bs.length = bs := by rw [h.1]; simp
  refine ⟨?_, rfl, ?_, ?_⟩
  · simp only [WPXInputStream.read]; exact htake
  · simp only [WPXInputStream.read, htake]
    rw [← List.drop_drop, h.1]; simp
  · simp only [WPXInputStream.read, htake]; omega

theorem rem_seekCur {s : WPXInputStream} {bs l : List Byte} (k : Int) (h : Rem s (bs ++ l))
    (hk : (bs.length : Int) = k) :
    (s.seekCur k).data = s.data ∧ Rem (s.seekCur k) l := by
  have hlen := h.length_eq
  simp only [List.length_append] at hlen
  have hpos : min (Int.toNat ((s.pos : Int) + k)) s.data.length = s.pos + bs.length := by
    have : Int.toNat ((s.pos : Int) + k) = s.pos + bs.length := by omega
    rw [this]; omega
  refine ⟨rfl, ?_, ?_⟩
  · simp only [WPXInputStream.seekCur, hpos]
    rw [← List.drop_drop, h.1]; simp
  · simp only [WPXInputStream.seekCur, hpos]; omega

theorem Res.bind_ok {α β : Type} (a : α) (s : WPXInputStream)
    (f : α → WPXInputStream → Res β) : (Res.ok a s).bind f = f a s := rfl

theorem Res.bind_thrown {α β : Type} (s : WPXInputStream)
    (f : α → WPXInputStream → Res β) : (Res.thrown s : Res α).bind f = Res.thrown s := rfl

theorem rem_seekSet {s : WPXInputStream} {p l : List Byte} (hd : s.data = p ++ l) :
    (s.seekSet p.length).data = s.data ∧ Rem (s.seekSet p.length) l := by
  refine ⟨rfl, ?_⟩
  apply rem_of_data (p := p)
  · exact hd
  · simp only [WPXInputStream.seekSet, hd, List.length_append]; omega

theorem rem_not_atEOS {s : WPXInputStream} {b : Byte} {l : List Byte} (h : Rem s (b :: l)) :
    s.atEOS = false := by
  have hlen := h.length_eq
  simp only [List.length_cons] at hlen
  simp only [WPXInputStream.atEOS, decide_eq_false_iff_not]; omega

theorem rem_read_ex {s : WPXInputStream} {bs l : List Byte} (h : Rem s (bs ++ l)) :
    ∃ s1, s.read bs.length = (bs, s1) ∧ s1.data = s.data ∧ Rem s1 l := by
  obtain ⟨h1, h2, h3⟩ := rem_read h
  exact ⟨(s.read bs.length).2, Prod.ext h1 rfl, h2, h3⟩

theorem byteOf_val (v : Nat) : (byteOf v).val = v % 256 := rfl

theorem readU16_rem {s : WPXInputStream} {v : Nat} {l : List Byte} (hv : v < 65536)
    (h : Rem s (le16 v ++ l)) :
    ∃ s1, readU16 s = .ok v s1 ∧ s1.data = s.data ∧ Rem s1 l := by
  obtain ⟨h1, h2, h3⟩ := rem_read h
  have hne : s.atEOS = false := rem_not_atEOS (b := byteOf v) (l := byteOf (v / 256) :: l) h
  refine ⟨(s.read 2).2, ?_, h2, h3⟩
  have hr : s.read 2 = (le16 v, (s.read 2).2) := Prod.ext h1 rfl
  unfold readU16
  rw [hne, hr]
  simp only [le16, byteOf_val, Bool.false_eq_true, if_false]
  congr 1
  omega

theorem readU32_rem {s : WPXInputStream} {v : Nat} {l : List Byte} (hv : v < 4294967296)
    (h : Rem s (le32 v ++ l)) :
    ∃ s1, readU32 s = .ok v s1 ∧ s1.data = s.data ∧ Rem s1 l := by
  obtain ⟨h1, h2, h3⟩ := rem_read h
  have hne : s.atEOS = false :=
    rem_not_atEOS (b := byteOf v)
      (l := byteOf (v / 256) :: byteOf (v / 65536) :: byteOf (v / 16777216) :: l) h
  refine ⟨(s.read 4).2, ?_, h2, h3⟩
  have hr : s.read 4 = (le32 v, (s.read 4).2) := Prod.ext h1 rfl
  unfold readU32
  rw [hne, hr]
  simp only [le32, byteOf_val, Bool.false_eq_true, if_false]
  congr 1
  omega

/-! ## The readers on encoded records -/

theorem readLocalFileHeader_rem {s : WPXInputStream} {lver ltime extra l : List Byte}
    {h : LocalFileHeader} (hf : h.fits) (hlv : lver.length = 2) (hlt : ltime.length = 4)
    (hx : extra.length < 65536)
    (hr : Rem s (encodeLocalFileHeader lver ltime h extra ++ l)) :
    ∃ s1, readLocalFileHeader s = (some h, s1) ∧ s1.data = s.data ∧ Rem s1 l := by
  obtain ⟨f1, f2, f3, f4, f5, f6⟩ := hf
  unfold encodeLocalFileHeader at hr
  simp only [List.append_assoc] at hr
  obtain ⟨s1, e1, d1, r1⟩ := readU32_rem (by decide) hr
  obtain ⟨d2, r2⟩ := rem_seekCur 2 r1 (by rw [hlv]; rfl)
  obtain ⟨s3, e3, d3, r3⟩ := readU16_rem f1 r2
  obtain ⟨s4, e4, d4, r4⟩ := readU16_rem f2 r3
  obtain ⟨d5, r5⟩ := rem_seekCur 4 r4 (by rw [hlt]; rfl)
  obtain ⟨s6, e6, d6, r6⟩ := readU32_rem f3 r5
  obtain ⟨s7, e7, d7, r7⟩ := readU32_rem f4 r6
  obtain ⟨s8, e8, d8, r8⟩ := readU32_rem f5 r7
  obtain ⟨s9, e9, d9, r9⟩ := readU16_rem f6 r8
  obtain ⟨s10, e10, d10, r10⟩ := readU16_rem hx r9
  obtain ⟨s11, hread, d11, r11⟩ := rem_read_ex r10
  obtain ⟨d12, r12⟩ := rem_seekCur _ r11 rfl
  refine ⟨_, ?_, ?_, r12⟩
  · unfold readLocalFileHeader readLocalFileHeaderBody
    simp only [e1, Res.bind_ok, ne_eq, not_true_eq_false, if_false, e3, e4, e6,
      e7, e8, e9, e10, hread]
  · rw [d12, d11, d10, d9, d8, d7, d6, d5, d4, d3, d2, d1]

theorem readLocalFileHeader_bad_sig {s : WPXInputStream} {v : Nat} {l : List Byte}
    (hv : v < 4294967296) (hne : v ≠ LOC_FILE_HEADER_SIG) (hr : Rem s (le32 v ++ l)) :
    (readLocalFileHeader s).1 = none := by
  obtain ⟨s1, e1, _, _⟩ := readU32_rem hv hr
  unfold readLocalFileHeader readLocalFileHeaderBody
  simp only [e1, Res.bind_ok, ne_eq, hne, not_false_eq_true, if_true]

theorem readCentralDirectoryEnd_rem {s : WPXInputStream} {edisk comment l : List Byte}
    {c : CentralDirectoryEnd} (h1 : c.cdir_size < 4294967296)
    (h2 : c.cdir_offset < 4294967296) (hed : edisk.length = 8)
    (hc : comment.length < 65536)
    (hr : Rem s (encodeCentralDirectoryEnd edisk c comment ++ l)) :
    ∃ s1, readCentralDirectoryEnd s = (some c, s1) ∧ s1.data = s.data ∧ Rem s1 l := by
  unfold encodeCentralDirectoryEnd at hr
  simp only [List.append_assoc] at hr
  obtain ⟨s1, e1, d1, r1⟩ := readU32_rem (by decide) hr
  obtain ⟨d2, r2⟩ := rem_seekCur 8 r1 (by rw [hed]; rfl)
  obtain ⟨s3, e3, d3, r3⟩ := readU32_rem h1 r2
  obtain ⟨s4, e4, d4, r4⟩ := readU32_rem h2 r3
  obtain ⟨s5, e5, d5, r5⟩ := readU16_rem hc r4
  obtain ⟨d6, r6⟩ := rem_seekCur _ r5 rfl
  refine ⟨_, ?_, ?_, r6⟩
  · unfold readCentralDirectoryEnd readCentralDirectoryEndBody
    simp only [e1, Res.bind_ok, ne_eq, not_true_eq_false, if_false, e3, e4, e5]
  · rw [d6, d5, d4, d3, d2, d1]

theorem readCentralDirectoryEntry_rem {s : WPXInputStream}
    {cver ctime cattr extra comment l : List Byte} {e : CentralDirectoryEntry}
    (hf : e.fits) (hcv : cver.length = 4) (hct : ctime.length = 4) (hca : cattr.length = 8)
    (hx : extra.length < 65536) (hc : comment.length < 65536)
    (hr : Rem s (encodeCentralDirectoryEntryBody cver ctime cattr e extra comment ++ l)) :
    ∃ s1, readCentralDirectoryEntry s = .ok e s1 ∧ s1.data = s.data ∧ Rem s1 l := by
  obtain ⟨f1, f2, f3, f4, f5, f6, f7⟩ := hf
  unfold encodeCentralDirectoryEntryBody at hr
  simp only [List.append_assoc] at hr
  obtain ⟨d1, r1⟩ := rem_seekCur 4 hr (by rw [hcv]; rfl)
  obtain ⟨s2, e2, d2, r2⟩ := readU16_rem f1 r1
  obtain ⟨s3, e3, d3, r3⟩ := readU16_rem f2 r2
  obtain ⟨d4, r4⟩ := rem_seekCur 4 r3 (by rw [hct]; rfl)
  obtain ⟨s5, e5, d5, r5⟩ := readU32_rem f3 r4
  obtain ⟨s6, e6, d6, r6⟩ := readU32_rem f4 r5
  obtain ⟨s7, e7, d7, r7⟩ := readU32_rem f5 r6
  obtain ⟨s8, e8, d8, r8⟩ := readU16_rem f7 r7
  obtain ⟨s9, e9, d9, r9⟩ := readU16_rem hx r8
  obtain ⟨s10, e10, d10, r10⟩ := readU16_rem hc r9
  obtain ⟨d11, r11⟩ := rem_seekCur 8 r10 (by rw [hca]; rfl)
  obtain ⟨s12, e12, d12, r12⟩ := readU32_rem f6 r11
  obtain ⟨s13, hread, d13, r13⟩ := rem_read_ex r12
  rw [← List.append_assoc] at r13
  obtain ⟨d14, r14⟩ := rem_seekCur ((extra.length + comment.length : Nat) : Int) r13
    (by simp)
  refine ⟨_, ?_, ?_, r14⟩
  · unfold readCentralDirectoryEntry
    simp only [Res.bind_ok, e2, e3, e5, e6, e7, e8, e9, e10, e12, hread]
  · rw [d14, d13, d12, d11, d10, d9, d8, d7, d6, d5, d4, d3, d2, d1]

theorem readCentralDirectoryLoop_entry {s : WPXInputStream}
    {cver ctime cattr extra comment l : List Byte} {e : CentralDirectoryEntry}
    (hf : e.fits) (hcv : cver.length = 4) (hct : ctime.length = 4) (hca : cattr.length = 8)
    (hx : extra.length < 65536) (hc : comment.length < 65536)
    (hr : Rem s (encodeCentralDirectoryEntry cver ctime cattr e extra comment ++ l))
    (fuel : Nat) (m : CDirMap) :
    ∃ s1, readCentralDirectoryLoop (fuel + 1) m s =
        readCentralDirectoryLoop fuel (mapInsert e.filename e m) s1 ∧
      s1.data = s.data ∧ Rem s1 l := by
  unfold encodeCentralDirectoryEntry at hr
  simp only [List.append_assoc] at hr
  have hne : s.atEOS = false := rem_not_atEOS hr
  obtain ⟨s1, e1, d1, r1⟩ := readU32_rem (by decide) hr
  obtain ⟨s2, e2, d2, r2⟩ := readCentralDirectoryEntry_rem hf hcv hct hca hx hc r1
  refine ⟨s2, ?_, by rw [d2, d1], r2⟩
  rw [readCentralDirectoryLoop]
  simp only [hne, e1, e2, Bool.false_eq_true, if_false, ne_eq, not_true_eq_false]

theorem readCentralDirectoryLoop_stop {s : WPXInputStream} {v : Nat} {l : List Byte}
    (hv : v < 4294967296) (hne : v ≠ CDIR_ENTRY_SIG) (hr : Rem s (le32 v ++ l))
    (fuel : Nat) (m : CDirMap) (hm : m ≠ []) :
    ∃ s1, readCentralDirectoryLoop (fuel + 1) m s = some (true, m, s1) ∧
      s1.data = s.data ∧ Rem s1 l := by
  have hnE : s.atEOS = false := rem_not_atEOS hr
  obtain ⟨s1, e1, d1, r1⟩ := readU32_rem hv hr
  refine ⟨s1, ?_, d1, r1⟩
  rw [readCentralDirectoryLoop]
  have : m.isEmpty = false := by cases m with
    | nil => exact absurd rfl hm
    | cons _ _ => rfl
  simp only [hnE, e1, Bool.false_eq_true, if_false, ne_eq, hne, not_false_eq_true, if_true, this]

/-! ## The end-of-directory scan -/

theorem u32_eq_iff (b0 b1 b2 b3 : Byte) (v : Nat) (hv : v < 4294967296) :
    b0.val + 256 * b1.val + 65536 * b2.val + 16777216 * b3.val = v ↔
      [b0, b1, b2, b3] = le32 v := by
  have h0 := b0.isLt
  have h1 := b1.isLt
  have h2 := b2.isLt
  have h3 := b3.isLt
  constructor
  · intro h
    simp only [le32, byteOf, List.cons.injEq, and_true]
    refine ⟨Fin.ext ?_, Fin.ext ?_, Fin.ext ?_, Fin.ext ?_⟩ <;> simp only <;> omega
  · intro h
    simp only [le32, byteOf, List.cons.injEq, and_true] at h
    obtain ⟨e0, e1, e2, e3⟩ := h
    have e0 := congrArg Fin.val e0
    have e1 := congrArg Fin.val e1
    have e2 := congrArg Fin.val e2
    have e3 := congrArg Fin.val e3
    simp only at e0 e1 e2 e3
    omega

theorem endSigAt_bound {data : List Byte} {p : Nat} (h : endSigAt data p = true) :
    p + 4 ≤ data.length := by
  simp only [endSigAt, beq_iff_eq] at h
  have h1 := congrArg List.length h
  simp only [List.length_take, List.length_drop, le32, List.length_cons, List.length_nil] at h1
  omega

/-- What `readU32` does, by the number of bytes left. -/
theorem readU32_cases (s : WPXInputStream) :
    (s.pos + 4 ≤ s.data.length →
      ∃ v s1, readU32 s = .ok v s1 ∧ s1.data = s.data ∧ s1.pos = s.pos + 4 ∧
        (v = CDIR_END_SIG ↔ endSigAt s.data s.pos = true)) ∧
    (s.data.length < s.pos + 4 → ∃ s1, readU32 s = .thrown s1 ∧ s1.data = s.data) := by
  constructor
  · intro hlen
    have hne : s.atEOS = false := by
      simp only [WPXInputStream.atEOS, decide_eq_false_iff_not]; omega
    have hl : ((s.data.drop s.pos).take 4).length = 4 := by
      simp only [List.length_take, List.length_drop]; omega
    generalize hbs : (s.data.drop s.pos).take 4 = bs at hl
    rcases bs with _ | ⟨b0, _ | ⟨b1, _ | ⟨b2, _ | ⟨b3, _ | ⟨b4, t⟩⟩⟩⟩⟩ <;>
      simp only [List.length_cons, List.length_nil] at hl <;> try omega
    have hr : s.read 4 = ([b0, b1, b2, b3], (s.read 4).2) :=
      Prod.ext (by simp only [WPXInputStream.read, hbs]) rfl
    refine ⟨b0.val + 256 * b1.val + 65536 * b2.val + 16777216 * b3.val, (s.read 4).2,
      ?_, rfl, ?_, ?_⟩
    · unfold readU32
      rw [hne, hr]
      simp only [Bool.false_eq_true, if_false]
    · simp only [WPXInputStream.read, hbs, List.length_cons, List.length_nil]
    · rw [u32_eq_iff b0 b1 b2 b3 CDIR_END_SIG (by decide)]
      simp only [endSigAt, hbs, beq_iff_eq]
  · intro hlen
    by_cases hE : s.atEOS = true
    · exact ⟨s, by unfold readU32; simp only [hE, if_true], rfl⟩
    · have hl : ((s.data.drop s.pos).take 4).length < 4 := by
        simp only [List.length_take, List.length_drop]; omega
      generalize hbs : (s.data.drop s.pos).take 4 = bs at hl
      have hr : s.read 4 = (bs, (s.read 4).2) :=
        Prod.ext (by simp only [WPXInputStream.read, hbs]) rfl
      refine ⟨(s.read 4).2, ?_, rfl⟩
      unfold readU32
      rw [hr]
      simp only [hE, if_false]
      rcases bs with _ | ⟨b0, _ | ⟨b1, _ | ⟨b2, _ | ⟨b3, _ | ⟨b4, t⟩⟩⟩⟩⟩ <;>
        simp only [List.length_cons, List.length_nil] at hl <;> first | rfl | omega

theorem seekCur_neg3 {s : WPXInputStream} {p : Nat} (hp : s.pos = p + 4)
    (hl : p + 4 ≤ s.data.length) :
    (s.seekCur (-3)).data = s.data ∧ (s.seekCur (-3)).pos = p + 1 := by
  refine ⟨rfl, ?_⟩
  simp only [WPXInputStream.seekCur, hp]; omega

theorem seekCur_neg4 {s : WPXInputStream} {p : Nat} (hp : s.pos = p + 4)
    (hl : p + 4 ≤ s.data.length) :
    (s.seekCur (-4)).data = s.data ∧ (s.seekCur (-4)).pos = p := by
  refine ⟨rfl, ?_⟩
  simp only [WPXInputStream.seekCur, hp]; omega

/-- The scan never uses up a budget larger than the number of bytes left. -/
theorem findLoop_fuel (fuel : Nat) (s : WPXInputStream)
    (hf : s.data.length - s.pos < fuel) : findLoop fuel s ≠ none := by
  induction fuel generalizing s with
  | zero => omega
  | succ n ih =>
    rw [findLoop]
    by_cases hE : s.atEOS = true
    · simp only [hE, if_true, ne_eq, reduceCtorEq, not_false_eq_true]
    · have hE1 : s.atEOS = false := by simpa using hE
      simp only [hE1, Bool.false_eq_true, if_false]
      by_cases hlen : s.pos + 4 ≤ s.data.length
      · obtain ⟨v, s1, e1, d1, p1, _⟩ := (readU32_cases s).1 hlen
        simp only [e1]
        by_cases hv : v = CDIR_END_SIG
        · simp only [hv, if_true, ne_eq, reduceCtorEq, not_false_eq_true]
        · simp only [hv, if_false]
          obtain ⟨d2, p2⟩ := seekCur_neg3 p1 (by rw [d1]; exact hlen)
          apply ih
          rw [d2, p2, d1]; omega
      · obtain ⟨s1, e1, _⟩ := (readU32_cases s).2 (by omega)
        simp only [e1, ne_eq, reduceCtorEq, not_false_eq_true]

/-- The scan stops at the first offset at or after the cursor that holds the
magic. -/
theorem findLoop_found (E : Nat) (fuel : Nat) (s : WPXInputStream)
    (hE : endSigAt s.data E = true) (hpos : s.pos ≤ E)
    (hno : ∀ p, s.pos ≤ p → p < E → endSigAt s.data p = false)
    (hf : E - s.pos < fuel) :
    ∃ s1, findLoop fuel s = some (some (E % 2 ^ 32), s1) ∧ s1.data = s.data ∧ s1.pos = E := by
  induction fuel generalizing s with
  | zero => omega
  | succ n ih =>
    have hb := endSigAt_bound hE
    have hnE : s.atEOS = false := by
      simp only [WPXInputStream.atEOS, decide_eq_false_iff_not]; omega
    obtain ⟨v, s1, e1, d1, p1, hv⟩ := (readU32_cases s).1 (by omega)
    rw [findLoop]
    simp only [hnE, e1, Bool.false_eq_true, if_false]
    by_cases hEq : s.pos = E
    · have hsig : v = CDIR_END_SIG := hv.2 (by rw [hEq]; exact hE)
      obtain ⟨d2, p2⟩ := seekCur_neg4 p1 (by rw [d1]; omega)
      refine ⟨s1.seekCur (-4), ?_, by rw [d2, d1], by rw [p2, hEq]⟩
      simp only [hsig, if_true, WPXInputStream.tell, p2, hEq]
    · have hsig : ¬ v = CDIR_END_SIG := by
        intro h
        have := hno s.pos (le_refl _) (by omega)
        rw [hv.1 h] at this
        exact Bool.noConfusion this
      obtain ⟨d2, p2⟩ := seekCur_neg3 p1 (by rw [d1]; omega)
      simp only [hsig, if_false]
      obtain ⟨s3, e3, d3, p3⟩ := ih (s1.seekCur (-3)) (by rw [d2, d1]; exact hE)
        (by rw [p2]; omega)
        (by intro p h1 h2; rw [d2, d1]; exact hno p (by rw [p2] at h1; omega) h2)
        (by rw [p2]; omega)
      exact ⟨s3, e3, by rw [d3, d2, d1], p3⟩

/-- Without the magic at or after the cursor the scan returns false. -/
theorem findLoop_absent (fuel : Nat) (s : WPXInputStream)
    (hno : ∀ p, s.pos ≤ p → endSigAt s.data p = false)
    (hf : s.data.length - s.pos < fuel) :
    ∃ s1, findLoop fuel s = some (none, s1) ∧ s1.data = s.data := by
  induction fuel generalizing s with
  | zero => omega
  | succ n ih =>
    rw [findLoop]
    by_cases hE : s.atEOS = true
    · exact ⟨s, by simp only [hE, if_true], rfl⟩
    · have hE1 : s.atEOS = false := by simpa using hE
      simp only [hE1, Bool.false_eq_true, if_false]
      by_cases hlen : s.pos + 4 ≤ s.data.length
      · obtain ⟨v, s1, e1, d1, p1, hv⟩ := (readU32_cases s).1 hlen
        have hsig : ¬ v = CDIR_END_SIG := by
          intro h
          have := hno s.pos (le_refl _)
          rw [hv.1 h] at this
          exact Bool.noConfusion this
        obtain ⟨d2, p2⟩ := seekCur_neg3 p1 (by rw [d1]; exact hlen)
        simp only [e1, hsig, if_false]
        obtain ⟨s3, e3, d3⟩ := ih (s1.seekCur (-3))
          (by intro p h1; rw [d2, d1]; exact hno p (by rw [p2] at h1; omega))
          (by rw [d2, p2, d1]; omega)
        exact ⟨s3, e3, by rw [d3, d2, d1]⟩
      · obtain ⟨s1, e1, d1⟩ := (readU32_cases s).2 (by omega)
        exact ⟨s1, by simp only [e1], d1⟩

/-! ## Detection and extraction on a minimal archive -/

theorem rem_seekSet_at {s : WPXInputStream} {p l : List Byte} {o : Nat}
    (hd : s.data = p ++ l) (hp : o = p.length) :
    (s.seekSet o).data = s.data ∧ Rem (s.seekSet o) l := by
  subst hp; exact rem_seekSet hd

theorem length_encodeLocalFileHeader {lver ltime : List Byte} (h : LocalFileHeader)
    (extra : List Byte) (hlv : lver.length = 2) (hlt : ltime.length = 4) :
    (encodeLocalFileHeader lver ltime h extra).length =
      30 + h.filename.length + extra.length := by
  simp only [encodeLocalFileHeader, List.length_append, le32, le16, List.length_cons,
    List.length_nil, hlv, hlt]
  omega

theorem length_encodeCentralDirectoryEntry {cver ctime cattr : List Byte}
    (e : CentralDirectoryEntry) (extra comment : List Byte) (hcv : cver.length = 4)
    (hct : ctime.length = 4) (hca : cattr.length = 8) :
    (encodeCentralDirectoryEntry cver ctime cattr e extra comment).length =
      46 + e.filename.length + extra.length + comment.length := by
  simp only [encodeCentralDirectoryEntry, encodeCentralDirectoryEntryBody, List.length_append,
    le32, le16, List.length_cons, List.length_nil, hcv, hct, hca]
  omega

theorem length_encodeCentralDirectoryEnd {edisk : List Byte} (cdend : CentralDirectoryEnd)
    (comment : List Byte) (hed : edisk.length = 8) :
    (encodeCentralDirectoryEnd edisk cdend comment).length = 22 + comment.length := by
  simp only [encodeCentralDirectoryEnd, List.length_append, le32, le16, List.length_cons,
    List.length_nil, hed]
  omega

theorem length_minimalArchive {k : Skipped} (hk : k.wellFormed)
    (flag method crc usize : Nat) (name body : List Byte) :
    (minimalArchive k flag method crc usize name body).length =
      soleEndOffset name body + 22 := by
  obtain ⟨h1, h2, h3, h4, h5, h6⟩ := hk
  simp only [minimalArchive, List.length_append, length_encodeLocalFileHeader _ _ h1 h2,
    length_encodeCentralDirectoryEntry _ _ _ h3 h4 h5, length_encodeCentralDirectoryEnd _ _ h6,
    soleHeader, soleEntry, soleEndOffset, soleDirOffset, List.length_nil]
  omega

/-- The end record of a minimal archive starts at `soleEndOffset`. -/
theorem endSigAt_minimalArchive {k : Skipped} (hk : k.wellFormed)
    (flag method crc usize : Nat) (name body : List Byte) :
    endSigAt (minimalArchive k flag method crc usize name body) (soleEndOffset name body)
      = true := by
  obtain ⟨h1, h2, h3, h4, h5, h6⟩ := hk
  have hlen : soleEndOffset name body =
      (encodeLocalFileHeader k.lver k.ltime (soleHeader flag method crc usize name body) [] ++
        (body ++ encodeCentralDirectoryEntry k.cver k.ctime k.cattr
          (soleEntry flag method crc usize name body) [] [])).length := by
    simp only [List.length_append, length_encodeLocalFileHeader _ _ h1 h2,
      length_encodeCentralDirectoryEntry _ _ _ h3 h4 h5, soleHeader, soleEntry, soleEndOffset,
      soleDirOffset, List.length_nil]
    omega
  have hsplit : minimalArchive k flag method crc usize name body =
      (encodeLocalFileHeader k.lver k.ltime (soleHeader flag method crc usize name body) [] ++
        (body ++ encodeCentralDirectoryEntry k.cver k.ctime k.cattr
          (soleEntry flag method crc usize name body) [] [])) ++
      encodeCentralDirectoryEnd k.edisk
        { cdir_size := 46 + name.length, cdir_offset := soleDirOffset name body } [] := by
    simp only [minimalArchive, List.append_assoc]
  rw [endSigAt, hsplit, hlen, List.drop_left]
  simp only [encodeCentralDirectoryEnd, le32, List.cons_append, List.nil_append, List.take_succ_cons,
    List.take_zero, beq_self_eq_true]

theorem areHeadersConsistent_sole (flag method crc usize : Nat) (name body : List Byte) :
    areHeadersConsistent (soleHeader flag method crc usize name body)
      (soleEntry flag method crc usize name body) = true := by
  simp only [areHeadersConsistent, soleHeader, soleEntry, ne_eq, not_true_eq_false, if_false,
    ite_self]

/-- The local header of a minimal archive is read back from offset 0. -/
theorem readLocalFileHeader_minimal {k : Skipped} (hk : k.wellFormed)
    {flag method crc usize : Nat} {name body : List Byte}
    (hflag : flag < 65536) (hmethod : method < 65536) (hcrc : crc < 4294967296)
    (husize : usize < 4294967296) (hname : name.length < 65536)
    (hbody : body.length < 4294967296) (s : WPXInputStream)
    (hs : s.data = minimalArchive k flag method crc usize name body) :
    ∃ s1 tail, readLocalFileHeader (s.seekSet 0) =
        (some (soleHeader flag method crc usize name body), s1) ∧
      s1.data = s.data ∧ Rem s1 (body ++ tail) := by
  obtain ⟨h1, h2, h3, h4, h5, h6⟩ := hk
  obtain ⟨d0, r0⟩ := rem_seekSet_at (s := s) (p := []) (o := 0) (by simpa using hs) rfl
  simp only [minimalArchive] at r0
  obtain ⟨s1, e1, d1, r1⟩ := readLocalFileHeader_rem
    (h := soleHeader flag method crc usize name body)
    ⟨hflag, hmethod, hcrc, hbody, husize, hname⟩ h1 h2 (by simp) r0
  exact ⟨s1, _, e1, by rw [d1, d0], r1⟩

/-- Detection accepts a minimal archive in which the end-of-directory magic
first occurs at the end record, and builds the one-entry table. -/
theorem isZipStream_minimal {k : Skipped} (hk : k.wellFormed)
    {flag method crc usize : Nat} {name body : List Byte}
    (hflag : flag < 65536) (hmethod : method < 65536) (hcrc : crc < 4294967296)
    (husize : usize < 4294967296) (hname : name.length < 65536)
    (hsize : soleEndOffset name body + 22 < 4294967296) (s : WPXInputStream)
    (hs : s.data = minimalArchive k flag method crc usize name body)
    (hsig : ∀ p, p < soleEndOffset name body → endSigAt s.data p = false) :
    ∃ z1, isZipStream (CDRZipStreamImpl.new s) = some (true, z1) ∧ z1.m_input.data = s.data ∧
      z1.m_cdir = [(name, soleEntry flag method crc usize name body)] ∧
      z1.m_cdir_offset = soleEndOffset name body := by
  have hbody : body.length < 4294967296 := by
    simp only [soleEndOffset, soleDirOffset] at hsize; omega
  have hE := endSigAt_minimalArchive hk flag method crc usize name body
  rw [← hs] at hE
  have hlenA := length_minimalArchive hk flag method crc usize name body
  rw [← hs] at hlenA
  obtain ⟨h1, h2, h3, h4, h5, h6⟩ := hk
  -- the scan
  have d0 : (s.seekSet 0).data = s.data := rfl
  have p0 : (s.seekSet 0).pos = 0 := by simp only [WPXInputStream.seekSet]; omega
  obtain ⟨s1, e1, d1, p1⟩ := findLoop_found (soleEndOffset name body) (s.data.length + 1)
    (s.seekSet 0) hE (by omega) (fun p _ h => hsig p h) (by rw [hlenA, p0]; omega)
  have hmod : soleEndOffset name body % 2 ^ 32 = soleEndOffset name body :=
    Nat.mod_eq_of_lt (by omega)
  rw [hmod] at e1
  -- the end record
  have hl12 : (encodeLocalFileHeader k.lver k.ltime
      (soleHeader flag method crc usize name body) [] ++ body).length =
      soleDirOffset name body := by
    simp only [List.length_append, length_encodeLocalFileHeader _ _ h1 h2, soleHeader,
      soleDirOffset, List.length_nil]
    omega
  have hl3 : (encodeCentralDirectoryEntry k.cver k.ctime k.cattr
      (soleEntry flag method crc usize name body) [] []).length = 46 + name.length := by
    simp only [length_encodeCentralDirectoryEntry _ _ _ h3 h4 h5, soleEntry, List.length_nil]
    omega
  have r1 : Rem s1 (encodeCentralDirectoryEnd k.edisk
      { cdir_size := 46 + name.length, cdir_offset := soleDirOffset name body } [] ++ []) := by
    apply rem_of_data (p := (encodeLocalFileHeader k.lver k.ltime
      (soleHeader flag method crc usize name body) [] ++ body) ++
      encodeCentralDirectoryEntry k.cver k.ctime k.cattr
        (soleEntry flag method crc usize name body) [] [])
    · rw [d1, d0, hs]; simp only [minimalArchive, List.append_assoc, List.append_nil]
    · rw [p1, List.length_append, hl12, hl3]; rfl
  obtain ⟨s2, e2, d2, _⟩ := readCentralDirectoryEnd_rem
    (c := { cdir_size := 46 + name.length, cdir_offset := soleDirOffset name body })
    (by simp only; omega) (by simp only [soleEndOffset] at hsize ⊢; omega) h6 (by simp) r1
  -- the directory
  obtain ⟨d3, r3⟩ := rem_seekSet_at (s := s2)
    (p := encodeLocalFileHeader k.lver k.ltime
      (soleHeader flag method crc usize name body) [] ++ body)
    (l := encodeCentralDirectoryEntry k.cver k.ctime k.cattr
        (soleEntry flag method crc usize name body) [] [] ++
      encodeCentralDirectoryEnd k.edisk
        { cdir_size := 46 + name.length, cdir_offset := soleDirOffset name body } [])
    (o := soleDirOffset name body)
    (by rw [d2, d1, d0, hs]; simp only [minimalArchive, List.append_assoc]) hl12.symm
  obtain ⟨s4, e4, d4, r4⟩ := readCentralDirectoryLoop_entry
    (e := soleEntry flag method crc usize name body)
    ⟨hflag, hmethod, hcrc, hbody, husize, by simp only [soleEntry]; omega, hname⟩
    h3 h4 h5 (by simp) (by simp) r3 (soleEndOffset name body + 21 + 1) []
  simp only [encodeCentralDirectoryEnd] at r4
  obtain ⟨s5, e5, d5, _⟩ := readCentralDirectoryLoop_stop (v := CDIR_END_SIG) (by decide)
    (by decide) r4 (soleEndOffset name body + 21)
    (mapInsert (soleEntry flag method crc usize name body).filename
      (soleEntry flag method crc usize name body) []) (by simp [mapInsert])
  have hdir : readCentralDirectory
      { cdir_size := 46 + name.length, cdir_offset := soleDirOffset name body }
      { m_input := s2, m_cdir_offset := soleEndOffset name body, m_cdir := [],
        m_initialized := true } =
      (true, { m_input := s5, m_cdir_offset := soleEndOffset name body,
               m_cdir := [(name, soleEntry flag method crc usize name body)],
               m_initialized := true }) := by
    simp only [readCentralDirectory]
    have hfuel : (s2.seekSet (soleDirOffset name body)).data.length + 1 =
        soleEndOffset name body + 21 + 1 + 1 := by rw [d3, d2, d1, d0, hlenA]
    rw [hfuel, e4, e5]
    simp only [mapInsert, soleEntry]
  -- the spot check
  obtain ⟨s6, tail, e6, d6, _⟩ := readLocalFileHeader_minimal ⟨h1, h2, h3, h4, h5, h6⟩
    hflag hmethod hcrc husize hname hbody s5
    (by rw [d5, d4, d3, d2, d1, d0, hs])
  refine ⟨{ m_input := s6, m_cdir_offset := soleEndOffset name body,
            m_cdir := [(name, soleEntry flag method crc usize name body)],
            m_initialized := true }, ?_, by rw [d6, d5, d4, d3, d2, d1, d0], rfl, rfl⟩
  have hfind : findCentralDirectoryEnd
      { m_input := s, m_cdir_offset := 0, m_cdir := [], m_initialized := true } =
      (true, { m_input := s1, m_cdir_offset := soleEndOffset name body, m_cdir := [],
               m_initialized := true }) := by
    simp only [findCentralDirectoryEnd]
    rw [d0, e1]
  have hoff : (soleEntry flag method crc usize name body).offset = 0 := rfl
  simp only [isZipStream, CDRZipStreamImpl.new, ne_eq, not_true_eq_false, if_false, hfind, e2,
    hdir, hoff, e6, areHeadersConsistent_sole, Bool.false_eq_true]

/-! ## The order of names -/

theorem strLt_irrefl (a : List Byte) : strLt a a = false := by
  induction a with
  | nil => rfl
  | cons x xs ih => simp only [strLt, lt_self_iff_false, if_false, ih]

/-- A string is never smaller than one of its initial segments. -/
theorem strLt_append_left (p q : List Byte) : strLt (p ++ q) p = false := by
  induction p with
  | nil => cases q <;> rfl
  | cons x xs ih =>
    rw [List.cons_append, strLt]
    simp only [lt_self_iff_false, if_false, ih]

theorem cString_append (name : List Byte) :
    cString name ++ name.dropWhile (fun b => b != 0) = name := by
  simp only [cString, List.takeWhile_append_dropWhile]

theorem strLt_cString (name : List Byte) : strLt name (cString name) = false := by
  have h := strLt_append_left (cString name) (name.dropWhile (fun b => b != 0))
  rwa [cString_append] at h

theorem take_cString (name : List Byte) : name.take (cString name).length = cString name := by
  have h : (cString name ++ name.dropWhile (fun b => b != 0)).take (cString name).length =
      cString name := by simp
  rwa [cString_append] at h

/-- In a one-entry table the entry's own name resolves to the entry. -/
theorem lowerBound_sole (name : List Byte) (e : CentralDirectoryEntry) :
    lowerBound [(name, e)] (cString name) = some (name, e) := by
  simp only [lowerBound, List.find?, strLt_cString, Bool.not_false]

/-! ## Extraction from a minimal archive -/

/-- Extraction of the stored member of a minimal archive. -/
theorem getSubstream_minimal_stored {k : Skipped} (hk : k.wellFormed)
    {flag crc usize : Nat} {name body : List Byte}
    (hflag : flag < 65536) (hcrc : crc < 4294967296)
    (husize : usize < 4294967296) (hname : name.length < 65536)
    (hbody : body.length < 4294967296) (zl : Zlib) (z : CDRZipStreamImpl)
    (hs : z.m_input.data = minimalArchive k flag 0 crc usize name body)
    (hm : z.m_cdir = [(name, soleEntry flag 0 crc usize name body)]) :
    ∃ z1, getSubstream zl z name = (some { m_buffer := body }, z1) := by
  obtain ⟨s1, tail, e1, d1, r1⟩ := readLocalFileHeader_minimal hk hflag (by decide) hcrc husize
    hname hbody z.m_input hs
  obtain ⟨s2, e2, _, _⟩ := rem_read_ex r1
  have hoff : (soleEntry flag 0 crc usize name body).offset = 0 := rfl
  have hcs : (soleEntry flag 0 crc usize name body).compressed_size = body.length := rfl
  have hcomp : (soleEntry flag 0 crc usize name body).compression = 0 := rfl
  refine ⟨{ z with m_input := s2 }, ?_⟩
  simp only [getSubstream, findEntry, hm, List.isEmpty_cons, Bool.false_eq_true, if_false, lowerBound_sole,
    take_cString, ne_eq, not_true_eq_false, decide_False, Bool.and_false, hoff, e1,
    areHeadersConsistent_sole, Bool.not_true, hcomp, if_true, hcs, e2]

/-- Extraction of the compressed member of a minimal archive: the outcome in
terms of the codec. -/
theorem getSubstream_minimal_deflate {k : Skipped} (hk : k.wellFormed)
    {flag method crc usize : Nat} {name body : List Byte}
    (hflag : flag < 65536) (hmethod : method < 65536) (hm0 : method ≠ 0)
    (hcrc : crc < 4294967296)
    (husize : usize < 4294967296) (hname : name.length < 65536)
    (hbody : body.length < 4294967296) (zl : Zlib) (z : CDRZipStreamImpl)
    (hs : z.m_input.data = minimalArchive k flag method crc usize name body)
    (hm : z.m_cdir = [(name, soleEntry flag method crc usize name body)])
    (hinit : zl.inflateInit2 = Z_OK) :
    ∃ z1, getSubstream zl z name =
      (if (zl.inflate body usize).1 = Z_NEED_DICT ∨ (zl.inflate body usize).1 = Z_DATA_ERROR ∨
          (zl.inflate body usize).1 = Z_MEM_ERROR then none
       else some { m_buffer :=
         ((zl.inflate body usize).2 ++ List.replicate usize 0).take usize }, z1) := by
  obtain ⟨s1, tail, e1, d1, r1⟩ := readLocalFileHeader_minimal hk hflag hmethod hcrc husize
    hname hbody z.m_input hs
  obtain ⟨s2, e2, _, _⟩ := rem_read_ex r1
  have hoff : (soleEntry flag method crc usize name body).offset = 0 := rfl
  have hcs : (soleEntry flag method crc usize name body).compressed_size = body.length := rfl
  have hus : (soleEntry flag method crc usize name body).uncompressed_size = usize := rfl
  have hcomp : (soleEntry flag method crc usize name body).compression = method := rfl
  refine ⟨{ z with m_input := s2 }, ?_⟩
  simp only [getSubstream, findEntry, hm, List.isEmpty_cons, Bool.false_eq_true, if_false, lowerBound_sole,
    take_cString, ne_eq, not_true_eq_false, decide_False, Bool.and_false, hoff, e1,
    areHeadersConsistent_sole, Bool.not_true, hcomp, hm0, hinit, hcs, hus, e2]
  split <;> rfl

/-! ## Round trips (C1, C2, C3) -/

/-- Once the table is built and the offset of the end record is not zero,
detection answers true from the cache. -/
theorem isZipStream_cached_true (z : CDRZipStreamImpl) (ho : z.m_cdir_offset ≠ 0)
    (hm : z.m_cdir ≠ []) : isZipStream z = some (true, z) := by
  have : z.m_cdir.isEmpty = false := by
    cases h : z.m_cdir with
    | nil => exact absurd h hm
    | cons _ _ => rfl
  simp only [isZipStream, ne_eq, ho, not_false_eq_true, if_true, this, Bool.false_eq_true,
    if_false]

/-- Detection and extraction on a minimal archive with a stored member, on a
fresh handle and on the handle after detection. -/
theorem stored_roundtrip_aux (k : Skipped) (flag crc : Nat) (name payload : List Byte)
    (zl : Zlib) (s : WPXInputStream)
    (hk : k.wellFormed) (hflag : flag < 65536) (hcrc : crc < 4294967296)
    (hname : name.length < 65536)
    (hsize : (minimalArchive k flag 0 crc payload.length name payload).length < 4294967296)
    (hs : s.data = minimalArchive k flag 0 crc payload.length name payload)
    (hsig : ∀ p, p < soleEndOffset name payload → endSigAt s.data p = false) :
    ∃ z1 z2 z3, isZipStream (CDRZipStreamImpl.new s) = some (true, z1) ∧
      getDocumentOLEStream zl (CDRZipStreamImpl.new s) name =
        some (some { m_buffer := payload }, z2) ∧
      getDocumentOLEStream zl z1 name = some (some { m_buffer := payload }, z3) := by
  rw [length_minimalArchive hk] at hsize
  have hbody : payload.length < 4294967296 := by
    simp only [soleEndOffset, soleDirOffset] at hsize; omega
  obtain ⟨z1, e1, d1, m1, o1⟩ := isZipStream_minimal hk hflag (by decide) hcrc hbody hname
    hsize s hs hsig
  obtain ⟨z2, e2⟩ := getSubstream_minimal_stored hk hflag hcrc hbody hname hbody zl z1
    (by rw [d1, hs]) m1
  have hc : isZipStream z1 = some (true, z1) :=
    isZipStream_cached_true z1 (by rw [o1]; simp only [soleEndOffset, soleDirOffset]; omega)
      (by rw [m1]; simp)
  refine ⟨z1, z2, z2, e1, ?_, ?_⟩
  · simp only [getDocumentOLEStream, e1, e2]
  · simp only [getDocumentOLEStream, hc, e2]

/-- C1 (amended): for every well-formed minimal archive with one stored entry
(any name, payload, flags, CRC and skipped fields) in which the bytes
50 4B 05 06 occur at no offset before the end record, `isZipStream` returns
true and `getDocumentOLEStream(name)` yields exactly the payload, both on a
fresh handle and on the handle after detection. -/
theorem stored_archive_roundtrip (k : Skipped) (flag crc : Nat) (name payload : List Byte)
    (zl : Zlib) (s : WPXInputStream)
    (hk : k.wellFormed) (hflag : flag < 65536) (hcrc : crc < 4294967296)
    (hname : name.length < 65536)
    (hsize : (minimalArchive k flag 0 crc payload.length name payload).length < 4294967296)
    (hs : s.data = minimalArchive k flag 0 crc payload.length name payload)
    (hsig : ∀ p, p < soleEndOffset name payload → endSigAt s.data p = false) :
    ∃ z1 z2 z3, isZipStream (CDRZipStreamImpl.new s) = some (true, z1) ∧
      getDocumentOLEStream zl (CDRZipStreamImpl.new s) name =
        some (some { m_buffer := payload }, z2) ∧
      getDocumentOLEStream zl z1 name = some (some { m_buffer := payload }, z3) :=
  stored_roundtrip_aux k flag crc name payload zl s hk hflag hcrc hname hsize hs hsig

set_option maxRecDepth 100000 in
/-- Witness of C1: the archive with the entry "a" (flag 0x0800) and payload
09 09. -/
theorem stored_archive_roundtrip_witness :
    ∃ z1 z2 z3,
      isZipStream (CDRZipStreamImpl.new
        (streamOf (minimalArchive plainSkipped 0x0800 0 0xe9c71112 2 [0x61] [9, 9]))) =
        some (true, z1) ∧
      getDocumentOLEStream noZlib (CDRZipStreamImpl.new
        (streamOf (minimalArchive plainSkipped 0x0800 0 0xe9c71112 2 [0x61] [9, 9]))) [0x61] =
        some (some { m_buffer := [9, 9] }, z2) ∧
      getDocumentOLEStream noZlib z1 [0x61] = some (some { m_buffer := [9, 9] }, z3) :=
  stored_archive_roundtrip plainSkipped 0x0800 0xe9c71112 [0x61] [9, 9] noZlib
    (streamOf (minimalArchive plainSkipped 0x0800 0 0xe9c71112 2 [0x61] [9, 9]))
    (by decide) (by decide) (by decide) (by decide) (by decide) rfl (by decide)

set_option maxRecDepth 100000 in
/-- Counterexample to C1 as stated: the well-formed minimal archive whose stored
payload is 50 4B 05 06 is rejected, and its payload is not delivered. -/
theorem stored_archive_magic_payload_rejected :
    (isZipStream (CDRZipStreamImpl.new (streamOf magicPayloadArchive))).map Prod.fst =
      some false ∧
    (getDocumentOLEStream noZlib (CDRZipStreamImpl.new (streamOf magicPayloadArchive))
      metaName).map Prod.fst = some none := by
  decide

set_option maxRecDepth 100000 in
/-- C2: for the archive with one stored entry "meta" and payload 01 02 03
(local header at offset 0, payload, directory entry, end record; 109 bytes),
`isZipStream` returns true and `getDocumentOLEStream("meta")` yields exactly
the bytes 01 02 03, whatever codec is linked. -/
theorem meta_archive_scenario (zl : Zlib) :
    metaArchive =
      [0x50, 0x4b, 0x03, 0x04, 20, 0, 0, 0, 0, 0, 0, 0, 0, 0, 0x1d, 0x80, 0xbc, 0x55,
       3, 0, 0, 0, 3, 0, 0, 0, 4, 0, 0, 0, 0x6d, 0x65, 0x74, 0x61, 1, 2, 3,
       0x50, 0x4b, 0x01, 0x02, 20, 0, 20, 0, 0, 0, 0, 0, 0, 0, 0, 0, 0x1d, 0x80, 0xbc, 0x55,
       3, 0, 0, 0, 3, 0, 0, 0, 4, 0, 0, 0, 0, 0, 0, 0, 0, 0, 0, 0, 0, 0, 0, 0, 0, 0,
       0x6d, 0x65, 0x74, 0x61,
       0x50, 0x4b, 0x05, 0x06, 0, 0, 0, 0, 1, 0, 1, 0, 50, 0, 0, 0, 37, 0, 0, 0, 0, 0] ∧
    (isZipStream (CDRZipStreamImpl.new (streamOf metaArchive))).map Prod.fst = some true ∧
    (getDocumentOLEStream zl (CDRZipStreamImpl.new (streamOf metaArchive)) metaName).map
      Prod.fst = some (some { m_buffer := [1, 2, 3] }) := by
  refine ⟨by decide, by decide, ?_⟩
  obtain ⟨z1, z2, z3, _, e2, _⟩ := stored_roundtrip_aux plainSkipped 0 0x55bc801d
    metaName [1, 2, 3] zl (streamOf metaArchive)
    (by decide) (by decide) (by decide) (by decide) (by decide) rfl (by decide)
  rw [e2]; rfl

/-- Detection and extraction on a minimal archive with a compressed member. -/
theorem deflate_roundtrip_aux {k : Skipped} {flag method crc : Nat}
    {name original compressed : List Byte} (zl : Zlib) (s : WPXInputStream)
    (hk : k.wellFormed) (hflag : flag < 65536) (hmethod : method < 65536) (hm0 : method ≠ 0)
    (hcrc : crc < 4294967296)
    (hname : name.length < 65536) (horig : original.length < 4294967296)
    (hsize : (minimalArchive k flag method crc original.length name compressed).length
      < 4294967296)
    (hs : s.data = minimalArchive k flag method crc original.length name compressed)
    (hinit : zl.inflateInit2 = Z_OK)
    (hinv : zl.inflate compressed original.length = (Z_STREAM_END, original))
    (hsig : ∀ p, p < soleEndOffset name compressed → endSigAt s.data p = false) :
    ∃ z1 z2 z3, isZipStream (CDRZipStreamImpl.new s) = some (true, z1) ∧
      getDocumentOLEStream zl (CDRZipStreamImpl.new s) name =
        some (some { m_buffer := original }, z2) ∧
      getDocumentOLEStream zl z1 name = some (some { m_buffer := original }, z3) := by
  rw [length_minimalArchive hk] at hsize
  have hbody : compressed.length < 4294967296 := by
    simp only [soleEndOffset, soleDirOffset] at hsize; omega
  obtain ⟨z1, e1, d1, m1, o1⟩ := isZipStream_minimal hk hflag hmethod hcrc horig hname
    hsize s hs hsig
  obtain ⟨z2, e2⟩ := getSubstream_minimal_deflate hk hflag hmethod hm0 hcrc horig hname hbody
    zl z1 (by rw [d1, hs]) m1 hinit
  have hc : isZipStream z1 = some (true, z1) :=
    isZipStream_cached_true z1 (by rw [o1]; simp only [soleEndOffset, soleDirOffset]; omega)
      (by rw [m1]; simp)
  have hres : (if (zl.inflate compressed original.length).1 = Z_NEED_DICT ∨
        (zl.inflate compressed original.length).1 = Z_DATA_ERROR ∨
        (zl.inflate compressed original.length).1 = Z_MEM_ERROR then none
      else some ({ m_buffer := ((zl.inflate compressed original.length).2 ++
        List.replicate original.length 0).take original.length } : CDRInternalStream)) =
      some { m_buffer := original } := by
    rw [hinv]
    have h1 : ¬ (Z_STREAM_END = Z_NEED_DICT ∨ Z_STREAM_END = Z_DATA_ERROR ∨
        Z_STREAM_END = Z_MEM_ERROR) := by decide
    simp only [h1, if_false, List.take_left]
  rw [hres] at e2
  refine ⟨z1, z2, z2, e1, ?_, ?_⟩
  · simp only [getDocumentOLEStream, e1, e2]
  · simp only [getDocumentOLEStream, hc, e2]

/-- C3 (amended): for every well-formed minimal archive with one
deflate-compressed (method 8) entry whose bytes are the encoding `enc original`
and whose uncompressed size is the original length, with a codec whose
initialisation succeeds and whose `inflate` inverts the encoder on that input,
and in which the bytes 50 4B 05 06 occur at no offset before the end record,
`getDocumentOLEStream(name)` yields a buffer identical to the original bytes. -/
theorem deflate_archive_roundtrip (k : Skipped) (flag crc : Nat)
    (name original : List Byte) (enc : List Byte → List Byte) (zl : Zlib)
    (s : WPXInputStream)
    (hk : k.wellFormed) (hflag : flag < 65536) (hcrc : crc < 4294967296)
    (hname : name.length < 65536) (horig : original.length < 4294967296)
    (hsize : (minimalArchive k flag 8 crc original.length name (enc original)).length
      < 4294967296)
    (hs : s.data = minimalArchive k flag 8 crc original.length name (enc original))
    (hinit : zl.inflateInit2 = Z_OK)
    (hinv : zl.inflate (enc original) original.length = (Z_STREAM_END, original))
    (hsig : ∀ p, p < soleEndOffset name (enc original) → endSigAt s.data p = false) :
    ∃ z1, getDocumentOLEStream zl (CDRZipStreamImpl.new s) name =
        some (some { m_buffer := original }, z1) := by
  obtain ⟨_, z2, _, _, e2, _⟩ := deflate_roundtrip_aux zl s hk hflag (by decide) (by decide)
    hcrc hname horig hsize hs hinit hinv hsig
  exact ⟨z2, e2⟩

set_option maxRecDepth 100000 in
/-- Witness of C3: the entry "meta" holding the level-0 deflate encoding of
01 02 03, decoded by the stored-block codec. -/
theorem deflate_archive_roundtrip_witness :
    storedDeflate [1, 2, 3] = [1, 3, 0, 252, 255, 1, 2, 3] ∧
    ∃ z1, getDocumentOLEStream storedZlib (CDRZipStreamImpl.new
        (streamOf (minimalArchive plainSkipped 0 8 0x55bc801d 3 metaName
          (storedDeflate [1, 2, 3])))) metaName =
        some (some { m_buffer := [1, 2, 3] }, z1) :=
  ⟨by decide,
   deflate_archive_roundtrip plainSkipped 0 0x55bc801d metaName [1, 2, 3] storedDeflate
    storedZlib (streamOf (minimalArchive plainSkipped 0 8 0x55bc801d 3 metaName
      (storedDeflate [1, 2, 3])))
    (by decide) (by decide) (by decide) (by decide) (by decide) (by decide) rfl rfl
    (by decide) (by decide)⟩

set_option maxRecDepth 100000 in
/-- Counterexample to C3 as stated: the well-formed archive whose deflated
member is the level-0 encoding of 50 4B 05 06 is rejected although the codec
inverts the encoder on it. -/
theorem deflate_archive_magic_rejected :
    storedZlib.inflateInit2 = Z_OK ∧
    storedZlib.inflate (storedDeflate magicBytes) magicBytes.length =
      (Z_STREAM_END, magicBytes) ∧
    (getDocumentOLEStream storedZlib (CDRZipStreamImpl.new (streamOf magicDeflateArchive))
      metaName).map Prod.fst = some none := by
  decide

/-! ## The cached answer of `isZipStream` (C4, C5, C9, C10) -/

theorem findCentralDirectoryEnd_frame (z : CDRZipStreamImpl) :
    (findCentralDirectoryEnd z).2.m_initialized = z.m_initialized ∧
    (findCentralDirectoryEnd z).2.m_cdir = z.m_cdir := by
  simp only [findCentralDirectoryEnd]
  split <;> exact ⟨rfl, rfl⟩

theorem readCentralDirectory_frame (cdend : CentralDirectoryEnd) (z : CDRZipStreamImpl) :
    (readCentralDirectory cdend z).2.m_initialized = z.m_initialized ∧
    (readCentralDirectory cdend z).2.m_cdir_offset = z.m_cdir_offset := by
  simp only [readCentralDirectory]
  split <;> exact ⟨rfl, rfl⟩

/-- What the first call of `isZipStream` leaves behind: the handle is marked
initialised, and the answer true comes with a passed spot check of the first
entry of the table. -/
theorem isZipStream_fresh_inv (z : CDRZipStreamImpl) (b : Bool) (z1 : CDRZipStreamImpl)
    (ho : z.m_cdir_offset = 0) (hi : z.m_initialized = false)
    (h : isZipStream z = some (b, z1)) :
    z1.m_initialized = true ∧
    (b = true → ∃ s0 k e rest header, z1.m_cdir = (k, e) :: rest ∧
      readLocalFileHeader (WPXInputStream.seekSet e.offset s0) = (some header, z1.m_input) ∧
      areHeadersConsistent header e = true) := by
  obtain ⟨inp, off, m, ini⟩ := z
  simp only at ho hi
  subst ho hi
  unfold isZipStream at h
  simp only [ne_eq, not_true_eq_false, if_false, Bool.false_eq_true] at h
  have hf := findCentralDirectoryEnd_frame
    { m_input := inp, m_cdir_offset := 0, m_cdir := m, m_initialized := true }
  generalize findCentralDirectoryEnd
    { m_input := inp, m_cdir_offset := 0, m_cdir := m, m_initialized := true } = r1 at h hf
  obtain ⟨b1, za⟩ := r1
  cases b1 with
  | false =>
    simp only [Option.some.injEq, Prod.mk.injEq] at h
    obtain ⟨hb, hz⟩ := h
    subst hb hz
    exact ⟨hf.1, fun h => Bool.noConfusion h⟩
  | true =>
    simp only at h hf
    generalize readCentralDirectoryEnd za.m_input = r2 at h
    obtain ⟨oe, sb⟩ := r2
    cases oe with
    | none =>
      simp only [Option.some.injEq, Prod.mk.injEq] at h
      obtain ⟨hb, hz⟩ := h
      subst hb hz
      exact ⟨hf.1, fun h => Bool.noConfusion h⟩
    | some cdend =>
      simp only at h
      have hd := readCentralDirectory_frame cdend
        { m_input := sb, m_cdir_offset := za.m_cdir_offset, m_cdir := za.m_cdir,
          m_initialized := za.m_initialized }
      generalize readCentralDirectory cdend
        { m_input := sb, m_cdir_offset := za.m_cdir_offset, m_cdir := za.m_cdir,
          m_initialized := za.m_initialized } = r3 at h hd
      obtain ⟨b3, zc⟩ := r3
      cases b3 with
      | false =>
        simp only [Option.some.injEq, Prod.mk.injEq] at h
        obtain ⟨hb, hz⟩ := h
        subst hb hz
        exact ⟨by rw [hd.1]; exact hf.1, fun h => Bool.noConfusion h⟩
      | true =>
        simp only at h hd
        cases hm : zc.m_cdir with
        | nil => simp only [hm] at h; exact Option.noConfusion h
        | cons kv rest =>
          obtain ⟨k, e⟩ := kv
          simp only [hm] at h
          generalize hr4 : readLocalFileHeader (WPXInputStream.seekSet e.offset zc.m_input) = r4
            at h
          obtain ⟨oh, sd⟩ := r4
          cases oh with
          | none =>
            simp only [Option.some.injEq, Prod.mk.injEq] at h
            obtain ⟨hb, hz⟩ := h
            subst hb hz
            exact ⟨by simp only; rw [hd.1]; exact hf.1, fun h => Bool.noConfusion h⟩
          | some header =>
            simp only [Option.some.injEq, Prod.mk.injEq] at h
            obtain ⟨hb, hz⟩ := h
            subst hz
            refine ⟨by simp only; rw [hd.1]; exact hf.1, fun hbt => ?_⟩
            exact ⟨zc.m_input, k, e, rest, header, rfl, hr4, by rw [hb]; exact hbt⟩

/-- On an initialised handle `isZipStream` answers from the cache and leaves
the handle, the cursor and the read and seek counters included, as it was. -/
theorem isZipStream_initialized (z : CDRZipStreamImpl) (hi : z.m_initialized = true) :
    ∃ b, isZipStream z = some (b, z) := by
  unfold isZipStream
  by_cases ho : z.m_cdir_offset = 0
  · exact ⟨false, by simp only [ho, ne_eq, not_true_eq_false, if_false, hi, if_true]⟩
  · cases hm : z.m_cdir.isEmpty with
    | true => exact ⟨false, by simp only [ne_eq, ho, not_false_eq_true, if_true, hm]⟩
    | false =>
      exact ⟨true, by simp only [ne_eq, ho, not_false_eq_true, if_true, hm,
        Bool.false_eq_true, if_false]⟩

theorem isZipStreamCalls_initialized (n : Nat) (z : CDRZipStreamImpl)
    (hi : z.m_initialized = true) :
    ∃ bs, isZipStreamCalls n z = some (bs, z) ∧ bs.length = n := by
  induction n with
  | zero => exact ⟨[], rfl, rfl⟩
  | succ n ih =>
    obtain ⟨b, hb⟩ := isZipStream_initialized z hi
    obtain ⟨bs, hbs, hl⟩ := ih
    exact ⟨b :: bs, by simp only [isZipStreamCalls, hb, hbs], by simp only [List.length_cons, hl]⟩

/-- The calls of the reader keep the flag, the table and the offset that
`getSubstream` does not assign. -/
theorem getSubstream_frame (zl : Zlib) (z : CDRZipStreamImpl) (name : List Byte) :
    (getSubstream zl z name).2.m_initialized = z.m_initialized ∧
    (getSubstream zl z name).2.m_cdir = z.m_cdir ∧
    (getSubstream zl z name).2.m_cdir_offset = z.m_cdir_offset := by
  unfold getSubstream
  repeat' split
  all_goals exact ⟨rfl, rfl, rfl⟩

/-- Every later state of an initialised handle is initialised. -/
theorem LaterState.initialized {z1 z : CDRZipStreamImpl} (h : LaterState z1 z)
    (hi : z1.m_initialized = true) : z.m_initialized = true := by
  induction h with
  | start => exact hi
  | afterIsZipStream _ hcall ih =>
    obtain ⟨b2, hb2⟩ := isZipStream_initialized _ ih
    rw [hb2] at hcall
    simp only [Option.some.injEq, Prod.mk.injEq] at hcall
    rw [← hcall.2]; exact ih
  | afterGetSubstream zl name _ ih =>
    rw [(getSubstream_frame zl _ name).1]; exact ih
  | afterGetDocumentOLEStream _ hcall ih =>
    obtain ⟨b2, hb2⟩ := isZipStream_initialized _ ih
    unfold getDocumentOLEStream at hcall
    rw [hb2] at hcall
    cases b2 with
    | false =>
      simp only [Option.some.injEq, Prod.mk.injEq] at hcall
      rw [← hcall.2]; exact ih
    | true =>
      simp only [Option.some.injEq] at hcall
      have h2 : (getSubstream _ _ _).2 = _ := congrArg Prod.snd hcall
      simp only at h2
      rw [← h2, (getSubstream_frame _ _ _).1]
      exact ih

/-- C5: for every byte source, once the first `isZipStream` call on a fresh
handle has returned, any number of later `isZipStream` calls leave the handle
exactly as the first call left it: the cursor position and the counts of reads
and seeks of the byte source are unchanged, so the later calls neither read
nor seek.  The same holds for an `isZipStream` call in any later state of the
handle, whatever calls of the reader came in between. -/
theorem isZipStream_later_calls_no_io (s : WPXInputStream) (b : Bool) (z1 : CDRZipStreamImpl)
    (h : isZipStream (CDRZipStreamImpl.new s) = some (b, z1)) :
    (∀ n, ∃ bs z2, isZipStreamCalls n z1 = some (bs, z2) ∧ bs.length = n ∧
      z2.m_input.pos = z1.m_input.pos ∧ z2.m_input.reads = z1.m_input.reads ∧
      z2.m_input.seeks = z1.m_input.seeks ∧ z2 = z1) ∧
    (∀ z, LaterState z1 z → ∃ b2, isZipStream z = some (b2, z)) := by
  have hi := (isZipStream_fresh_inv _ b z1 rfl rfl h).1
  refine ⟨fun n => ?_, fun z hz => isZipStream_initialized z (hz.initialized hi)⟩
  obtain ⟨bs, hbs, hl⟩ := isZipStreamCalls_initialized n z1 hi
  exact ⟨bs, z1, hbs, hl, rfl, rfl, rfl, rfl⟩

set_option maxRecDepth 100000 in
/-- Witness of C5: two later calls on the handle of the "meta" archive. -/
theorem isZipStream_later_calls_no_io_witness :
    isZipStream (CDRZipStreamImpl.new (streamOf metaArchive)) = some (true, metaHandle) ∧
    ∃ bs z2, isZipStreamCalls 2 metaHandle = some (bs, z2) ∧ bs.length = 2 ∧
      z2.m_input.pos = metaHandle.m_input.pos ∧ z2.m_input.reads = metaHandle.m_input.reads ∧
      z2.m_input.seeks = metaHandle.m_input.seeks ∧ z2 = metaHandle :=
  ⟨by decide,
   (isZipStream_later_calls_no_io (streamOf metaArchive) true metaHandle (by decide)).1 2⟩

set_option maxRecDepth 100000 in
/-- C4 fails on the code: on the archive whose directory entry says method 1
and whose local header says method 0, the first `isZipStream` call returns
false and the second and third return true. -/
theorem isZipStream_false_then_true :
    (isZipStreamCalls 3 (CDRZipStreamImpl.new (streamOf metaArchiveBadMethod))).map Prod.fst =
      some [false, true, true] := by
  decide

set_option maxRecDepth 100000 in
/-- C10 fails on the code for a later call: on the same archive the second
`isZipStream` call returns true from the cache although the local header at
the offset of the first directory entry is not consistent with that entry. -/
theorem isZipStream_cached_true_without_spot_check :
    isZipStream (CDRZipStreamImpl.new (streamOf metaArchiveBadMethod)) =
      some (false, badMethodHandle) ∧
    isZipStream badMethodHandle = some (true, badMethodHandle) ∧
    badMethodHandle.m_cdir.head? =
      some (metaName, soleEntry 0 1 0x55bc801d 3 metaName [1, 2, 3]) ∧
    (readLocalFileHeader (badMethodHandle.m_input.seekSet 0)).1 =
      some (soleHeader 0 0 0x55bc801d 3 metaName [1, 2, 3]) ∧
    areHeadersConsistent (soleHeader 0 0 0x55bc801d 3 metaName [1, 2, 3])
      (soleEntry 0 1 0x55bc801d 3 metaName [1, 2, 3]) = false := by
  decide

/-- A handle whose scan has failed answers false and stays as it is. -/
theorem isZipStream_rejected (z : CDRZipStreamImpl) (ho : z.m_cdir_offset = 0)
    (hi : z.m_initialized = true) : isZipStream z = some (false, z) := by
  unfold isZipStream
  simp only [ho, ne_eq, not_true_eq_false, if_false, hi, if_true]

theorem isZipStreamCalls_rejected (n : Nat) (z : CDRZipStreamImpl) (ho : z.m_cdir_offset = 0)
    (hi : z.m_initialized = true) :
    isZipStreamCalls n z = some (List.replicate n false, z) := by
  induction n with
  | zero => rfl
  | succ n ih =>
    simp only [isZipStreamCalls, isZipStream_rejected z ho hi, ih, List.replicate_succ]

theorem endSigAt_of_bounded {data : List Byte}
    (hno : ∀ p, p < data.length → endSigAt data p = false) (p : Nat) :
    endSigAt data p = false := by
  by_cases hp : p < data.length
  · exact hno p hp
  · cases h : endSigAt data p with
    | false => rfl
    | true => have := endSigAt_bound h; omega

/-- The first call on a source without the end-of-directory magic. -/
theorem isZipStream_no_magic (s : WPXInputStream)
    (hno : ∀ p, p < s.data.length → endSigAt s.data p = false) :
    ∃ s1, isZipStream (CDRZipStreamImpl.new s) =
      some (false, { m_input := s1, m_cdir_offset := 0, m_cdir := [], m_initialized := true }) := by
  obtain ⟨s1, e1, _⟩ := findLoop_absent (s.data.length + 1) (s.seekSet 0)
    (fun p _ => endSigAt_of_bounded hno p)
    (by simp only [WPXInputStream.seekSet]; omega)
  have hfind : findCentralDirectoryEnd
      { m_input := s, m_cdir_offset := 0, m_cdir := [], m_initialized := true } =
      (false, { m_input := s1, m_cdir_offset := 0, m_cdir := [], m_initialized := true }) := by
    simp only [findCentralDirectoryEnd]
    rw [show (s.seekSet 0).data = s.data from rfl, e1]
  exact ⟨s1, by simp only [isZipStream, CDRZipStreamImpl.new, ne_eq, not_true_eq_false,
    if_false, Bool.false_eq_true, hfind]⟩

/-- C9: for every byte source in which the magic 50 4B 05 06 occurs at no
offset, every one of any number of `isZipStream` calls returns false,
`getDocumentOLEStream` returns null for every name, on the fresh handle and
after any number of `isZipStream` calls, and every call has a defined result
(nothing escapes). -/
theorem no_end_magic_rejected (s : WPXInputStream) (zl : Zlib)
    (hno : ∀ p, p < s.data.length → endSigAt s.data p = false) :
    (∀ n, ∃ z, isZipStreamCalls n (CDRZipStreamImpl.new s) =
      some (List.replicate n false, z)) ∧
    (∀ name, ∃ z, getDocumentOLEStream zl (CDRZipStreamImpl.new s) name = some (none, z)) ∧
    (∀ n name, ∃ bs z1 z2, isZipStreamCalls n (CDRZipStreamImpl.new s) = some (bs, z1) ∧
      getDocumentOLEStream zl z1 name = some (none, z2)) := by
  obtain ⟨s1, e1⟩ := isZipStream_no_magic s hno
  have hcalls : ∀ n, ∃ z, isZipStreamCalls n (CDRZipStreamImpl.new s) =
      some (List.replicate n false, z) ∧ ∃ z2, isZipStream z = some (false, z2) := by
    intro n
    cases n with
    | zero => exact ⟨_, rfl, _, e1⟩
    | succ n =>
      refine ⟨{ m_input := s1, m_cdir_offset := 0, m_cdir := [], m_initialized := true }, ?_,
        _, isZipStream_rejected _ rfl rfl⟩
      have h2 := isZipStreamCalls_rejected n
        { m_input := s1, m_cdir_offset := 0, m_cdir := [], m_initialized := true } rfl rfl
      simp only [isZipStreamCalls, e1, h2, List.replicate_succ]
  refine ⟨fun n => ?_, fun name => ?_, fun n name => ?_⟩
  · obtain ⟨z, h, _⟩ := hcalls n
    exact ⟨z, h⟩
  · exact ⟨{ m_input := s1, m_cdir_offset := 0, m_cdir := [], m_initialized := true },
      by simp only [getDocumentOLEStream, e1]⟩
  · obtain ⟨z, h, z2, hz⟩ := hcalls n
    exact ⟨_, z, z2, h, by simp only [getDocumentOLEStream, hz]⟩

set_option maxRecDepth 100000 in
/-- Witness of C9: the "meta" archive cut off before its end record (its first
87 bytes). -/
theorem no_end_magic_rejected_witness :
    truncatedArchive.length = 87 ∧
    (∀ n, ∃ z, isZipStreamCalls n (CDRZipStreamImpl.new (streamOf truncatedArchive)) =
      some (List.replicate n false, z)) ∧
    (∀ name, ∃ z, getDocumentOLEStream noZlib (CDRZipStreamImpl.new
      (streamOf truncatedArchive)) name = some (none, z)) ∧
    (∀ n name, ∃ bs z1 z2, isZipStreamCalls n (CDRZipStreamImpl.new
        (streamOf truncatedArchive)) = some (bs, z1) ∧
      getDocumentOLEStream noZlib z1 name = some (none, z2)) :=
  ⟨by decide, no_end_magic_rejected (streamOf truncatedArchive) noZlib (by decide)⟩

/-! ## Header consistency (C8) and name lookup (C6, C7) -/

theorem and_eight_eq_zero_iff (n : Nat) : n &&& 8 = 0 ↔ n.testBit 3 = false := by
  have h83 : Nat.testBit 8 3 = true := by decide
  constructor
  · intro h
    have := congrArg (fun m => m.testBit 3) h
    simpa [Nat.testBit_and, h83] using this
  · intro h
    apply Nat.eq_of_testBit_eq
    intro i
    have h8 : (8 : Nat) = 2 ^ 3 := rfl
    rw [Nat.testBit_and, h8, Nat.testBit_two_pow]
    by_cases hi : 3 = i
    · subst hi; simp [h]
    · simp [hi]

/-- The value of `areHeadersConsistent` in terms of the compared fields. -/
theorem areHeadersConsistent_true_iff (h : LocalFileHeader) (e : CentralDirectoryEntry) :
    areHeadersConsistent h e = true ↔
      h.general_flag = e.general_flag ∧ h.compression = e.compression ∧
      (h.general_flag.testBit 3 = true ∨
        (h.crc32 = e.crc32 ∧ h.compressed_size = e.compressed_size ∧
          h.uncompressed_size = e.uncompressed_size)) := by
  unfold areHeadersConsistent
  by_cases h1 : h.general_flag = e.general_flag
  · by_cases h2 : h.compression = e.compression
    · by_cases h3 : h.general_flag &&& 8 = 0
      · have hb : h.general_flag.testBit 3 = false := (and_eight_eq_zero_iff _).1 h3
        rw [h1] at h3 hb
        by_cases h4 : h.crc32 = e.crc32
        · by_cases h5 : h.compressed_size = e.compressed_size
          · by_cases h6 : h.uncompressed_size = e.uncompressed_size
            · simp [h1, h2, h3, h4, h5, h6]
            · simp [h1, h2, h3, h4, h5, h6, hb]
          · simp [h1, h2, h3, h4, h5, hb]
        · simp [h1, h2, h3, h4, hb]
      · have hb : h.general_flag.testBit 3 = true := by
          cases hc : h.general_flag.testBit 3 with
          | true => rfl
          | false => exact absurd ((and_eight_eq_zero_iff _).2 hc) h3
        rw [h1] at h3 hb
        simp [h1, h2, h3, hb]
    · simp [h1, h2]
  · simp [h1]

/-- C8: `areHeadersConsistent(h, e)` is true if and only if the flags are equal
and the compression methods are equal and (bit 3, value 0x08, of the header's
flags is set, or CRC-32, compressed size and uncompressed size are equal); the
result does not depend on the embedded names. -/
theorem areHeadersConsistent_iff (h : LocalFileHeader) (e : CentralDirectoryEntry) :
    (areHeadersConsistent h e = true ↔
      h.general_flag = e.general_flag ∧ h.compression = e.compression ∧
      (h.general_flag.testBit 3 = true ∨
        (h.crc32 = e.crc32 ∧ h.compressed_size = e.compressed_size ∧
          h.uncompressed_size = e.uncompressed_size))) ∧
    (∀ n1 n2 : List Byte,
      areHeadersConsistent { h with filename := n1 } { e with filename := n2 } =
        areHeadersConsistent h e) :=
  ⟨areHeadersConsistent_true_iff h e, fun _ _ => rfl⟩

theorem strLt_asymm (a b : List Byte) (h : strLt a b = true) : strLt b a = false := by
  induction a generalizing b with
  | nil => cases b <;> rfl
  | cons x xs ih =>
    cases b with
    | nil => simp only [strLt] at h; exact Bool.noConfusion h
    | cons y ys =>
      simp only [strLt] at h ⊢
      by_cases h1 : x.val < y.val
      · have h2 : ¬ y.val < x.val := by omega
        simp only [h2, if_false, h1, if_true]
      · simp only [h1, if_false] at h
        by_cases h2 : y.val < x.val
        · simp only [h2, if_true] at h; exact Bool.noConfusion h
        · simp only [h2, if_false] at h
          simp only [h2, if_false, h1, ih ys h]

theorem strLt_connex (a b : List Byte) (h1 : strLt a b = false) (h2 : strLt b a = false) :
    a = b := by
  induction a generalizing b with
  | nil =>
    cases b with
    | nil => rfl
    | cons y ys => simp only [strLt] at h1; exact Bool.noConfusion h1
  | cons x xs ih =>
    cases b with
    | nil => simp only [strLt] at h2; exact Bool.noConfusion h2
    | cons y ys =>
      simp only [strLt] at h1 h2
      by_cases hxy : x.val < y.val
      · simp only [hxy, if_true] at h1; exact Bool.noConfusion h1
      · by_cases hyx : y.val < x.val
        · simp only [hyx, if_true] at h2; exact Bool.noConfusion h2
        · simp only [hxy, hyx, if_false] at h1 h2
          have hv : x = y := Fin.ext (by omega)
          rw [hv, ih ys h1 h2]

/-- A key between a name and an extension of the name starts with the name. -/
theorem take_of_between (n q k : List Byte) (h1 : strLt k n = false)
    (h2 : strLt (n ++ q) k = false) : k.take n.length = n := by
  induction n generalizing k with
  | nil => rfl
  | cons a n ih =>
    cases k with
    | nil => simp only [strLt] at h1; exact Bool.noConfusion h1
    | cons b k =>
      rw [List.cons_append] at h2
      simp only [strLt] at h1 h2
      by_cases hba : b.val < a.val
      · simp only [hba, if_true] at h1; exact Bool.noConfusion h1
      · by_cases hab : a.val < b.val
        · simp only [hab, if_true] at h2; exact Bool.noConfusion h2
        · simp only [hab, hba, if_false] at h1 h2
          have hv : b = a := Fin.ext (by omega)
          simp only [List.length_cons, List.take_succ_cons, hv, ih k h1 h2]

/-- In an ordered table `lower_bound` returns the pair with the smallest key
that is not less than the name. -/
theorem lowerBound_some (m : CDirMap) (n k : List Byte) (e : CentralDirectoryEntry)
    (hord : mapOrdered m) (h : lowerBound m n = some (k, e)) :
    (k, e) ∈ m ∧ strLt k n = false ∧
      ∀ k1 e1, (k1, e1) ∈ m → strLt k1 n = false → strLt k1 k = false := by
  induction m with
  | nil => simp only [lowerBound, List.find?] at h; exact Option.noConfusion h
  | cons kv rest ih =>
    obtain ⟨k0, e0⟩ := kv
    simp only [mapOrdered, List.pairwise_cons] at hord
    obtain ⟨hhead, htail⟩ := hord
    simp only [lowerBound, List.find?] at h
    cases hc : strLt k0 n with
    | false =>
      simp only [hc, Bool.not_false, Option.some.injEq, Prod.mk.injEq] at h
      obtain ⟨hk, he⟩ := h
      subst hk he
      refine ⟨List.mem_cons_self _ _, hc, fun k1 e1 hmem _ => ?_⟩
      rcases List.mem_cons.1 hmem with heq | hin
      · simp only [Prod.mk.injEq] at heq
        rw [heq.1]; exact strLt_irrefl _
      · exact strLt_asymm _ _ (hhead (k1, e1) hin)
    | true =>
      simp only [hc, Bool.not_true] at h
      obtain ⟨hmem, hge, hmin⟩ := ih htail h
      refine ⟨List.mem_cons_of_mem _ hmem, hge, fun k1 e1 hmem1 hge1 => ?_⟩
      rcases List.mem_cons.1 hmem1 with heq | hin
      · simp only [Prod.mk.injEq] at heq
        rw [heq.1, hc] at hge1; exact Bool.noConfusion hge1
      · exact hmin k1 e1 hin hge1

theorem lowerBound_none (m : CDirMap) (n : List Byte) (h : lowerBound m n = none)
    (k : List Byte) (e : CentralDirectoryEntry) (hmem : (k, e) ∈ m) : strLt k n = true := by
  simp only [lowerBound, List.find?_eq_none] at h
  have := h (k, e) hmem
  simpa using this

/-- When a name resolves, and to what: the lookup of `getSubstream`. -/
theorem findEntry_some_iff (m : CDirMap) (name k : List Byte) (e : CentralDirectoryEntry) :
    findEntry m name = some (k, e) ↔
      lowerBound m (cString name) = some (k, e) ∧
        (strLt (cString name) k = false ∨ k.take (cString name).length = cString name) := by
  unfold findEntry
  cases m with
  | nil => simp [lowerBound]
  | cons kv rest =>
    simp only [List.isEmpty_cons, Bool.false_eq_true, if_false]
    cases hl : lowerBound (kv :: rest) (cString name) with
    | none => simp
    | some p =>
      obtain ⟨k1, e1⟩ := p
      simp only
      by_cases hc : strLt (cString name) k1 = false
      · simp [hc]
        intro h1 _; subst h1; exact Or.inl hc
      · have hc1 : strLt (cString name) k1 = true := by simpa using hc
        by_cases ht : k1.take (cString name).length = cString name
        · simp [hc1, ht]
          intro h1 _; subst h1; exact Or.inr ht
        · simp [hc1, ht]
          intro h1 _; subst h1; exact ⟨hc1, ht⟩

/-- The lookup resolves exactly when some key starts with the name. -/
theorem findEntry_isSome_iff (m : CDirMap) (name : List Byte) (hord : mapOrdered m) :
    (findEntry m name).isSome = true ↔ ∃ k e q, (k, e) ∈ m ∧ k = cString name ++ q := by
  constructor
  · intro h
    cases hf : findEntry m name with
    | none => rw [hf] at h; exact Bool.noConfusion h
    | some p =>
      obtain ⟨k, e⟩ := p
      obtain ⟨hl, hc⟩ := (findEntry_some_iff m name k e).1 hf
      obtain ⟨hmem, hge, _⟩ := lowerBound_some m _ k e hord hl
      rcases hc with hc | hc
      · exact ⟨k, e, [], hmem, by rw [List.append_nil]; exact strLt_connex _ _ hge hc⟩
      · refine ⟨k, e, k.drop (cString name).length, hmem, ?_⟩
        conv_lhs => rw [← List.take_append_drop (cString name).length k]
        rw [hc]
  · rintro ⟨k, e, q, hmem, hk⟩
    have hkn : strLt k (cString name) = false := by rw [hk]; exact strLt_append_left _ _
    cases hl : lowerBound m (cString name) with
    | none =>
      have := lowerBound_none m _ hl k e hmem
      rw [hkn] at this; exact Bool.noConfusion this
    | some p =>
      obtain ⟨k0, e0⟩ := p
      obtain ⟨_, hge, hmin⟩ := lowerBound_some m _ k0 e0 hord hl
      have hle : strLt (cString name ++ q) k0 = false := by
        rw [← hk]; exact hmin k e hmem hkn
      have ht := take_of_between (cString name) q k0 hge hle
      rw [(findEntry_some_iff m name k0 e0).2 ⟨hl, Or.inr ht⟩]
      rfl

/-- C6: for every directory table (keys in increasing order, as in `std::map`)
and every requested name, a name that resolves resolves to the entry with the
smallest key not less than the name in bytewise order; it resolves if and only
if some key equals the name or has the name as a proper literal byte prefix;
and when no key starts with the name, `getSubstream` returns null and leaves the
handle, its byte source included, untouched. -/
theorem findEntry_spec (m : CDirMap) (name : List Byte) (hord : mapOrdered m) :
    (∀ k e, findEntry m name = some (k, e) →
      (k, e) ∈ m ∧ strLt k (cString name) = false ∧
      ∀ k1 e1, (k1, e1) ∈ m → strLt k1 (cString name) = false → strLt k1 k = false) ∧
    ((findEntry m name).isSome = true ↔ ∃ k e q, (k, e) ∈ m ∧ k = cString name ++ q) ∧
    (∀ (zl : Zlib) (z : CDRZipStreamImpl), z.m_cdir = m →
      (¬ ∃ k e q, (k, e) ∈ m ∧ k = cString name ++ q) →
      getSubstream zl z name = (none, z)) := by
  refine ⟨fun k e h => ?_, findEntry_isSome_iff m name hord, fun zl z hz hno => ?_⟩
  · exact lowerBound_some m _ k e hord ((findEntry_some_iff m name k e).1 h).1
  · have hnone : findEntry m name = none := by
      cases hf : findEntry m name with
      | none => rfl
      | some p =>
        exact absurd ((findEntry_isSome_iff m name hord).1 (by rw [hf]; rfl)) hno
    simp only [getSubstream, hz, hnone]

set_option maxRecDepth 100000 in
/-- Witness of C6: with the single stored key "root/x", the names "root" and
"roo" resolve to it and "missing" resolves to nothing. -/
theorem findEntry_spec_witness :
    (findEntry rootTable [0x72, 0x6f, 0x6f, 0x74]).map Prod.fst = some rootXName ∧
    (findEntry rootTable [0x72, 0x6f, 0x6f]).map Prod.fst = some rootXName ∧
    findEntry rootTable [0x6d, 0x69, 0x73, 0x73, 0x69, 0x6e, 0x67] = none ∧
    ((∀ k e, findEntry rootTable [0x72, 0x6f, 0x6f] = some (k, e) →
      (k, e) ∈ rootTable ∧ strLt k (cString [0x72, 0x6f, 0x6f]) = false ∧
      ∀ k1 e1, (k1, e1) ∈ rootTable → strLt k1 (cString [0x72, 0x6f, 0x6f]) = false →
        strLt k1 k = false) ∧
    ((findEntry rootTable [0x72, 0x6f, 0x6f]).isSome = true ↔
      ∃ k e q, (k, e) ∈ rootTable ∧ k = cString [0x72, 0x6f, 0x6f] ++ q) ∧
    (∀ (zl : Zlib) (z : CDRZipStreamImpl), z.m_cdir = rootTable →
      (¬ ∃ k e q, (k, e) ∈ rootTable ∧ k = cString [0x72, 0x6f, 0x6f] ++ q) →
      getSubstream zl z [0x72, 0x6f, 0x6f] = (none, z))) :=
  ⟨by decide, by decide, by decide, findEntry_spec rootTable [0x72, 0x6f, 0x6f] (by decide)⟩

/-- C7: for every handle state and every name that resolves to a directory
entry `e`: if the local header read at `e.offset` differs from `e` in
compression method or in general-purpose flags, or (bit 3 of the flags being
clear) in CRC-32, compressed size or uncompressed size, then `getSubstream`
returns null. -/
theorem getSubstream_inconsistent (zl : Zlib) (z : CDRZipStreamImpl) (name k : List Byte)
    (e : CentralDirectoryEntry) (h : LocalFileHeader)
    (hres : findEntry z.m_cdir name = some (k, e))
    (hread : (readLocalFileHeader (z.m_input.seekSet e.offset)).1 = some h)
    (hdiff : h.compression ≠ e.compression ∨ h.general_flag ≠ e.general_flag ∨
      (h.general_flag.testBit 3 = false ∧
        (h.crc32 ≠ e.crc32 ∨ h.compressed_size ≠ e.compressed_size ∨
          h.uncompressed_size ≠ e.uncompressed_size))) :
    (getSubstream zl z name).1 = none := by
  have hc : areHeadersConsistent h e = false := by
    cases hv : areHeadersConsistent h e with
    | false => rfl
    | true =>
      obtain ⟨h1, h2, h3⟩ := (areHeadersConsistent_true_iff h e).1 hv
      rcases hdiff with hd | hd | ⟨hb, hd⟩
      · exact absurd h2 hd
      · exact absurd h1 hd
      · rcases h3 with h3 | ⟨h4, h5, h6⟩
        · rw [hb] at h3; exact Bool.noConfusion h3
        · rcases hd with hd | hd | hd
          · exact absurd h4 hd
          · exact absurd h5 hd
          · exact absurd h6 hd
  generalize hr : readLocalFileHeader (z.m_input.seekSet e.offset) = r at hread
  obtain ⟨oh, s1⟩ := r
  simp only at hread
  subst hread
  simp only [getSubstream, hres, hr, hc, Bool.not_false, if_true]

set_option maxRecDepth 100000 in
/-- Witness of C7: the "meta" archive with the directory entry's compression
field set to 1 while the local header says 0; `getDocumentOLEStream("meta")`
is null on the fresh handle and again on the handle it leaves. -/
theorem getSubstream_inconsistent_witness :
    (getDocumentOLEStream noZlib (CDRZipStreamImpl.new (streamOf metaArchiveBadMethod))
      metaName) = some (none, badMethodHandle) ∧
    (getDocumentOLEStream noZlib badMethodHandle metaName).map Prod.fst = some none ∧
    (getSubstream noZlib badMethodHandle metaName).1 = none :=
  ⟨by decide, by decide,
   getSubstream_inconsistent noZlib badMethodHandle metaName metaName
    (soleEntry 0 1 0x55bc801d 3 metaName [1, 2, 3])
    (soleHeader 0 0 0x55bc801d 3 metaName [1, 2, 3]) (by decide) (by decide)
    (Or.inl (by decide))⟩

/-! ## The directory loop never exhausts its budget -/

theorem Res.bind_eq_ok {α β : Type} {r : Res α} {f : α → WPXInputStream → Res β} {b : β}
    {s2 : WPXInputStream} (h : r.bind f = .ok b s2) :
    ∃ a s1, r = .ok a s1 ∧ f a s1 = .ok b s2 := by
  cases r with
  | ok a s1 => exact ⟨a, s1, rfl, h⟩
  | thrown s1 => simp only [Res.bind] at h; exact Res.noConfusion h

theorem readU32_ok_adv {s s1 : WPXInputStream} {v : Nat} (h : readU32 s = .ok v s1) :
    s1.data = s.data ∧ s.pos ≤ s1.pos ∧ s1.pos ≤ s1.data.length ∧ s1.pos = s.pos + 4 := by
  by_cases hlen : s.pos + 4 ≤ s.data.length
  · obtain ⟨v2, s2, e2, d2, p2, _⟩ := (readU32_cases s).1 hlen
    rw [e2] at h
    simp only [Res.ok.injEq] at h
    obtain ⟨_, hs⟩ := h
    subst hs
    exact ⟨d2, by omega, by rw [d2]; omega, p2⟩
  · obtain ⟨s2, e2, _⟩ := (readU32_cases s).2 (by omega)
    rw [e2] at h
    exact Res.noConfusion h

theorem readU16_ok_adv {s s1 : WPXInputStream} {v : Nat} (h : readU16 s = .ok v s1) :
    s1.data = s.data ∧ s.pos ≤ s1.pos ∧ s1.pos ≤ s1.data.length := by
  unfold readU16 at h
  by_cases hE : s.atEOS = true
  · simp only [hE, if_true] at h; exact Res.noConfusion h
  · have hE1 : s.atEOS = false := by simpa using hE
    simp only [hE1, Bool.false_eq_true, if_false, WPXInputStream.read] at h
    have hl : ((s.data.drop s.pos).take 2).length ≤ s.data.length - s.pos := by
      simp only [List.length_take, List.length_drop]; omega
    have hp : s.pos < s.data.length := by
      simpa [WPXInputStream.atEOS] using hE
    generalize (s.data.drop s.pos).take 2 = bs at h hl
    rcases bs with _ | ⟨b0, _ | ⟨b1, _ | ⟨b2, t⟩⟩⟩
    · exact Res.noConfusion h
    · exact Res.noConfusion h
    · simp only [Bool.false_eq_true, if_false, Res.ok.injEq] at h
      obtain ⟨_, hs⟩ := h
      subst hs
      simp only [List.length_cons, List.length_nil] at hl ⊢
      exact ⟨trivial, by omega, by omega⟩
    · exact Res.noConfusion h

theorem seekCur_nat_adv (s : WPXInputStream) (k : Nat) (hp : s.pos ≤ s.data.length) :
    (s.seekCur (k : Int)).data = s.data ∧ s.pos ≤ (s.seekCur (k : Int)).pos ∧
      (s.seekCur (k : Int)).pos ≤ (s.seekCur (k : Int)).data.length := by
  refine ⟨rfl, ?_, ?_⟩ <;> simp only [WPXInputStream.seekCur] <;> omega

theorem read_adv (s : WPXInputStream) (n : Nat) (hp : s.pos ≤ s.data.length) :
    (s.read n).2.data = s.data ∧ s.pos ≤ (s.read n).2.pos ∧
      (s.read n).2.pos ≤ (s.read n).2.data.length := by
  refine ⟨rfl, ?_, ?_⟩ <;>
    simp only [WPXInputStream.read, List.length_take, List.length_drop] <;> omega

/-- A directory entry that is read leaves the cursor inside the source and not
before where it was. -/
theorem readCentralDirectoryEntry_adv {s s2 : WPXInputStream} {e : CentralDirectoryEntry}
    (hp : s.pos ≤ s.data.length) (h : readCentralDirectoryEntry s = .ok e s2) :
    s2.data = s.data ∧ s.pos ≤ s2.pos ∧ s2.pos ≤ s2.data.length := by
  unfold readCentralDirectoryEntry at h
  obtain ⟨d0, p0, q0⟩ := seekCur_nat_adv s 4 hp
  obtain ⟨v1, s1, e1, h⟩ := Res.bind_eq_ok h
  obtain ⟨d1, p1, q1⟩ := readU16_ok_adv e1
  obtain ⟨v2, s2a, e2, h⟩ := Res.bind_eq_ok h
  obtain ⟨d2, p2, q2⟩ := readU16_ok_adv e2
  obtain ⟨d3, p3, q3⟩ := seekCur_nat_adv s2a 4 q2
  obtain ⟨v4, s4, e4, h⟩ := Res.bind_eq_ok h
  obtain ⟨d4, p4, q4, _⟩ := readU32_ok_adv e4
  obtain ⟨v5, s5, e5, h⟩ := Res.bind_eq_ok h
  obtain ⟨d5, p5, q5, _⟩ := readU32_ok_adv e5
  obtain ⟨v6, s6, e6, h⟩ := Res.bind_eq_ok h
  obtain ⟨d6, p6, q6, _⟩ := readU32_ok_adv e6
  obtain ⟨v7, s7, e7, h⟩ := Res.bind_eq_ok h
  obtain ⟨d7, p7, q7⟩ := readU16_ok_adv e7
  obtain ⟨v8, s8, e8, h⟩ := Res.bind_eq_ok h
  obtain ⟨d8, p8, q8⟩ := readU16_ok_adv e8
  obtain ⟨v9, s9, e9, h⟩ := Res.bind_eq_ok h
  obtain ⟨d9, p9, q9⟩ := readU16_ok_adv e9
  obtain ⟨d10, p10, q10⟩ := seekCur_nat_adv s9 8 q9
  obtain ⟨v11, s11, e11, h⟩ := Res.bind_eq_ok h
  obtain ⟨d11, p11, q11, _⟩ := readU32_ok_adv e11
  obtain ⟨d12, p12, q12⟩ := read_adv s11 v7 q11
  generalize s11.read v7 = rr at h d12 p12 q12
  obtain ⟨buf, s12⟩ := rr
  simp only at d12 p12 q12
  obtain ⟨d13, p13, q13⟩ := seekCur_nat_adv s12 (v8 + v9) q12
  simp only [Res.ok.injEq] at h
  obtain ⟨_, hs⟩ := h
  subst hs
  simp only [Nat.cast_ofNat] at d0 p0 q0 d3 p3 q3 d10 p10 q10 d1 p1 d4 p4 d11 p11
  refine ⟨?_, ?_, q13⟩
  · rw [d13, d12, d11, d10, d9, d8, d7, d6, d5, d4, d3, d2, d1, d0]
  · omega

/-- The directory loop never uses up a budget larger than the number of bytes
left. -/
theorem readCentralDirectoryLoop_fuel (fuel : Nat) (m : CDirMap) (s : WPXInputStream)
    (hf : s.data.length - s.pos < fuel) : readCentralDirectoryLoop fuel m s ≠ none := by
  induction fuel generalizing m s with
  | zero => omega
  | succ n ih =>
    rw [readCentralDirectoryLoop]
    by_cases hE : s.atEOS = true
    · simp only [hE, if_true, ne_eq, reduceCtorEq, not_false_eq_true]
    · have hE1 : s.atEOS = false := by simpa using hE
      simp only [hE1, Bool.false_eq_true, if_false]
      cases h1 : readU32 s with
      | thrown s1 => simp only [ne_eq, reduceCtorEq, not_false_eq_true]
      | ok v s1 =>
        obtain ⟨d1, p1, q1, r1⟩ := readU32_ok_adv h1
        simp only
        by_cases hv : v = CDIR_ENTRY_SIG
        · simp only [hv, ne_eq, not_true_eq_false, if_false]
          cases h2 : readCentralDirectoryEntry s1 with
          | thrown s2 => simp only [ne_eq, reduceCtorEq, not_false_eq_true]
          | ok e s2 =>
            obtain ⟨d2, p2, q2⟩ := readCentralDirectoryEntry_adv q1 h2
            simp only
            apply ih
            rw [d2, d1]; rw [d1] at q1; omega
        · simp only [ne_eq, hv, not_false_eq_true, if_true]
          split <;> simp only [ne_eq, reduceCtorEq, not_false_eq_true]

/-! ## The table after detection (C11) -/

/-- Every later state of an initialised handle has the table and the offset of
the state it started from. -/
theorem LaterState.table {z1 z : CDRZipStreamImpl} (h : LaterState z1 z)
    (hi : z1.m_initialized = true) :
    z.m_cdir = z1.m_cdir ∧ z.m_cdir_offset = z1.m_cdir_offset := by
  induction h with
  | start => exact ⟨rfl, rfl⟩
  | afterIsZipStream hl hcall ih =>
    obtain ⟨b2, hb2⟩ := isZipStream_initialized _ (hl.initialized hi)
    rw [hb2] at hcall
    simp only [Option.some.injEq, Prod.mk.injEq] at hcall
    rw [← hcall.2]; exact ih
  | afterGetSubstream zl name _ ih =>
    obtain ⟨_, h2, h3⟩ := getSubstream_frame zl _ name
    exact ⟨h2.trans ih.1, h3.trans ih.2⟩
  | afterGetDocumentOLEStream hl hcall ih =>
    obtain ⟨b2, hb2⟩ := isZipStream_initialized _ (hl.initialized hi)
    unfold getDocumentOLEStream at hcall
    rw [hb2] at hcall
    cases b2 with
    | false =>
      simp only [Option.some.injEq, Prod.mk.injEq] at hcall
      rw [← hcall.2]; exact ih
    | true =>
      simp only [Option.some.injEq] at hcall
      have h2 : (getSubstream _ _ _).2 = _ := congrArg Prod.snd hcall
      simp only at h2
      obtain ⟨_, h3, h4⟩ := getSubstream_frame _ _ _
      rw [← h2]
      exact ⟨h3.trans ih.1, h4.trans ih.2⟩

/-- C11: after the first `isZipStream` call on a fresh handle has returned, no
later operation on the handle (`isZipStream`, `getSubstream` or
`getDocumentOLEStream` with any name and any codec, succeeding or failing, in
any number and order) changes the directory table `m_cdir` or the cached offset
`m_cdir_offset`. -/
theorem directory_table_read_only (s : WPXInputStream) (b : Bool) (z1 : CDRZipStreamImpl)
    (h : isZipStream (CDRZipStreamImpl.new s) = some (b, z1)) (z : CDRZipStreamImpl)
    (hz : LaterState z1 z) :
    z.m_cdir = z1.m_cdir ∧ z.m_cdir_offset = z1.m_cdir_offset :=
  hz.table (isZipStream_fresh_inv _ b z1 rfl rfl h).1

set_option maxRecDepth 100000 in
/-- Witness of C11: on the "meta" archive, a failing extraction of "missing",
an extraction of "meta" and another `isZipStream` call leave the table and the
offset as detection built them. -/
theorem directory_table_read_only_witness :
    isZipStream (CDRZipStreamImpl.new (streamOf metaArchive)) = some (true, metaHandle) ∧
    (getSubstream noZlib metaHandle [0x6d, 0x69, 0x73, 0x73, 0x69, 0x6e, 0x67]).1 = none ∧
    (getSubstream noZlib
      (getSubstream noZlib metaHandle [0x6d, 0x69, 0x73, 0x73, 0x69, 0x6e, 0x67]).2
      metaName).1 = some { m_buffer := [1, 2, 3] } ∧
    (getSubstream noZlib
      (getSubstream noZlib metaHandle [0x6d, 0x69, 0x73, 0x73, 0x69, 0x6e, 0x67]).2
      metaName).2.m_cdir = metaHandle.m_cdir ∧
    (getSubstream noZlib
      (getSubstream noZlib metaHandle [0x6d, 0x69, 0x73, 0x73, 0x69, 0x6e, 0x67]).2
      metaName).2.m_cdir_offset = metaHandle.m_cdir_offset :=
  ⟨by decide, by decide, by decide,
   directory_table_read_only (streamOf metaArchive) true metaHandle (by decide) _
    (LaterState.afterGetSubstream noZlib metaName
      (LaterState.afterGetSubstream noZlib [0x6d, 0x69, 0x73, 0x73, 0x69, 0x6e, 0x67]
        LaterState.start))⟩

/-! ## The local header reader (C14) -/

theorem rem_of_drop_cons {s : WPXInputStream} {b : Byte} {l : List Byte}
    (h : s.data.drop s.pos = b :: l) : Rem s (b :: l) := by
  refine ⟨h, ?_⟩
  have h1 := congrArg List.length h
  simp only [List.length_drop, List.length_cons] at h1
  omega

/-- A 32-bit read of an encoded value is one call of `read` and no seek. -/
theorem readU32_rem_exact {s : WPXInputStream} {v : Nat} {l : List Byte}
    (hv : v < 4294967296) (h : Rem s (le32 v ++ l)) :
    readU32 s = .ok v { s with pos := s.pos + 4, reads := s.reads + 1 } := by
  obtain ⟨h1, _, _⟩ := rem_read h
  have hne : s.atEOS = false :=
    rem_not_atEOS (b := byteOf v)
      (l := byteOf (v / 256) :: byteOf (v / 65536) :: byteOf (v / 16777216) :: l) h
  have h2 : (s.data.drop s.pos).take 4 = le32 v := by
    simpa only [WPXInputStream.read] using h1
  unfold readU32
  simp only [hne, WPXInputStream.read, h2, Bool.false_eq_true, if_false]
  simp only [le32, byteOf_val, List.length_cons, List.length_nil]
  congr 1
  omega

/-- C14: `readLocalFileHeader` returns false when the four bytes at the cursor
are not the local-header magic, having done one read of four bytes and no seek
(and also when fewer than four bytes are left); and on every source that holds
a complete local header at the cursor (magic, flags at +6, compression at +8,
CRC-32 at +14, sizes at +18 and +22, name length `n` at +26, extra length `m`
at +28, name at +30, little-endian) it returns true with exactly those field
values and the `n` name bytes, the cursor at +30+n+m, the first payload byte. -/
theorem readLocalFileHeader_spec (s : WPXInputStream) :
    (∀ (v : Nat) (rest : List Byte), v < 4294967296 → v ≠ LOC_FILE_HEADER_SIG →
      s.data.drop s.pos = le32 v ++ rest →
      readLocalFileHeader s = (none, { s with pos := s.pos + 4, reads := s.reads + 1 })) ∧
    (s.data.length < s.pos + 4 → (readLocalFileHeader s).1 = none) ∧
    (∀ (lver ltime extra rest : List Byte) (h : LocalFileHeader),
      h.fits → lver.length = 2 → ltime.length = 4 → extra.length < 65536 →
      s.data.drop s.pos = encodeLocalFileHeader lver ltime h extra ++ rest →
      ∃ s1, readLocalFileHeader s = (some h, s1) ∧ s1.data = s.data ∧
        s1.pos = s.pos + 30 + h.filename.length + extra.length ∧
        s1.data.drop s1.pos = rest) := by
  refine ⟨fun v rest hv hne hd => ?_, fun hlen => ?_, fun lver ltime extra rest h hf hlv hlt hx hd => ?_⟩
  · have hr : Rem s (le32 v ++ rest) := rem_of_drop_cons hd
    have e1 := readU32_rem_exact hv hr
    unfold readLocalFileHeader readLocalFileHeaderBody
    simp only [e1, Res.bind_ok, ne_eq, hne, not_false_eq_true, if_true]
  · obtain ⟨s1, e1, _⟩ := (readU32_cases s).2 hlen
    unfold readLocalFileHeader readLocalFileHeaderBody
    simp only [e1, Res.bind_thrown]
  · have hr : Rem s (encodeLocalFileHeader lver ltime h extra ++ rest) := by
      have hd2 := hd
      simp only [encodeLocalFileHeader, le32, List.cons_append] at hd2
      have := rem_of_drop_cons hd2
      simpa only [encodeLocalFileHeader, le32, List.cons_append] using this
    obtain ⟨s1, e1, d1, r1⟩ := readLocalFileHeader_rem hf hlv hlt hx hr
    refine ⟨s1, e1, d1, ?_, r1.1⟩
    have h1 := hr.length_eq
    have h2 := r1.length_eq
    rw [d1] at h2
    simp only [List.length_append, length_encodeLocalFileHeader h extra hlv hlt] at h1
    omega

set_option maxRecDepth 100000 in
/-- Witness of C14: the local header of the "meta" archive at offset 0, and the
directory entry signature at offset 37 read as a local header. -/
theorem readLocalFileHeader_spec_witness :
    (∃ s1, readLocalFileHeader (streamOf metaArchive) =
        (some (soleHeader 0 0 0x55bc801d 3 metaName [1, 2, 3]), s1) ∧
      s1.data = metaArchive ∧ s1.pos = 0 + 30 + 4 + 0 ∧
      s1.data.drop s1.pos = metaArchive.drop 34) ∧
    readLocalFileHeader { data := metaArchive, pos := 37, reads := 0, seeks := 0 } =
      (none, { data := metaArchive, pos := 41, reads := 1, seeks := 0 }) :=
  ⟨(readLocalFileHeader_spec (streamOf metaArchive)).2.2 plainSkipped.lver plainSkipped.ltime []
      (metaArchive.drop 34) (soleHeader 0 0 0x55bc801d 3 metaName [1, 2, 3])
      (by unfold LocalFileHeader.fits; decide) (by decide) (by decide) (by decide) (by decide),
   (readLocalFileHeader_spec { data := metaArchive, pos := 37, reads := 0, seeks := 0 }).1
      CDIR_ENTRY_SIG (metaArchive.drop 41) (by decide) (by decide) (by decide)⟩

/-! ## The two extraction paths (C20) -/

/-- C20: for every resolved and validated entry, `getSubstream` returns the raw
range of `compressed_size` bytes at the cursor when the compression method is
0, and for every non-zero method code it is the deflate path `inflatePath`,
which does not look at the method code; so on two archives that differ only in
a non-zero method code (the same in local header and directory entry)
`getSubstream` gives the same result. -/
theorem getSubstream_method_paths (zl : Zlib) (z : CDRZipStreamImpl) (name k : List Byte)
    (e : CentralDirectoryEntry) (h : LocalFileHeader) (s : WPXInputStream)
    (hres : findEntry z.m_cdir name = some (k, e))
    (hread : readLocalFileHeader (z.m_input.seekSet e.offset) = (some h, s))
    (hcons : areHeadersConsistent h e = true) :
    (e.compression = 0 →
      getSubstream zl z name =
        (some { m_buffer := (s.read e.compressed_size).1 },
         { z with m_input := (s.read e.compressed_size).2 })) ∧
    (e.compression ≠ 0 →
      getSubstream zl z name =
        ((inflatePath zl e.compressed_size e.uncompressed_size s).1,
         { z with m_input := (inflatePath zl e.compressed_size e.uncompressed_size s).2 })) ∧
    (∀ (sk : Skipped) (flag m1 m2 crc usize : Nat) (nm body : List Byte),
      sk.wellFormed → flag < 65536 → m1 < 65536 → m2 < 65536 → m1 ≠ 0 → m2 ≠ 0 →
      crc < 4294967296 → usize < 4294967296 → nm.length < 65536 →
      body.length < 4294967296 → zl.inflateInit2 = Z_OK →
      (getSubstream zl (minimalHandle sk flag m1 crc usize nm body) nm).1 =
        (getSubstream zl (minimalHandle sk flag m2 crc usize nm body) nm).1) := by
  refine ⟨fun h0 => ?_, fun h0 => ?_, ?_⟩
  · simp only [getSubstream, hres, hread, hcons, Bool.not_true, Bool.false_eq_true, if_false,
      h0, if_true]
  · simp only [getSubstream, hres, hread, hcons, Bool.not_true, Bool.false_eq_true, if_false,
      h0, inflatePath]
    by_cases hi : zl.inflateInit2 = Z_OK
    · simp only [hi, ne_eq, not_true_eq_false, if_false]
      by_cases hl : (s.read e.compressed_size).1.length = e.compressed_size
      · simp only [hl, ne_eq, not_true_eq_false, if_false]
        split <;> rfl
      · simp only [hl, ne_eq, not_false_eq_true, if_true]
    · simp only [hi, ne_eq, not_false_eq_true, if_true]
  · intro sk flag m1 m2 crc usize nm body hk hflag hm1 hm2 h1 h2 hcrc husize hname hbody hinit
    obtain ⟨z1, e1⟩ := getSubstream_minimal_deflate hk hflag hm1 h1 hcrc husize hname hbody zl
      (minimalHandle sk flag m1 crc usize nm body) rfl rfl hinit
    obtain ⟨z2, e2⟩ := getSubstream_minimal_deflate hk hflag hm2 h2 hcrc husize hname hbody zl
      (minimalHandle sk flag m2 crc usize nm body) rfl rfl hinit
    rw [e1, e2]

set_option maxRecDepth 100000 in
/-- Witness of C20: the "meta" archive with the level-0 deflate encoding of
01 02 03 under method 8 and under method 99, and the stored "meta" archive. -/
theorem getSubstream_method_paths_witness :
    (getSubstream storedZlib metaHandle metaName).1 = some { m_buffer := [1, 2, 3] } ∧
    (getSubstream storedZlib
      (minimalHandle plainSkipped 0 8 0x55bc801d 3 metaName (storedDeflate [1, 2, 3]))
      metaName).1 = some { m_buffer := [1, 2, 3] } ∧
    (getSubstream storedZlib
      (minimalHandle plainSkipped 0 8 0x55bc801d 3 metaName (storedDeflate [1, 2, 3]))
      metaName).1 =
    (getSubstream storedZlib
      (minimalHandle plainSkipped 0 99 0x55bc801d 3 metaName (storedDeflate [1, 2, 3]))
      metaName).1 :=
  ⟨by decide, by decide,
   (getSubstream_method_paths storedZlib metaHandle metaName metaName
      (soleEntry 0 0 0x55bc801d 3 metaName [1, 2, 3])
      (soleHeader 0 0 0x55bc801d 3 metaName [1, 2, 3])
      (readLocalFileHeader (metaHandle.m_input.seekSet 0)).2
      (by decide) (by decide) (by decide)).2.2 plainSkipped 0 8 99 0x55bc801d 3 metaName
      (storedDeflate [1, 2, 3]) (by decide) (by decide) (by decide) (by decide) (by decide)
      (by decide) (by decide) (by decide) (by decide) (by decide) rfl⟩

/-! ## The directory reader on a complete directory (C13) -/

theorem mapInsert_ne_nil (k : List Byte) (v : CentralDirectoryEntry) (m : CDirMap) :
    mapInsert k v m ≠ [] := by
  cases m with
  | nil => simp [mapInsert]
  | cons kv rest =>
    obtain ⟨k1, v1⟩ := kv
    simp only [mapInsert]
    split
    · simp
    · split <;> simp

theorem length_encode_pos (r : DirRecord) (h : r.wellFormed) : 0 < r.encode.length := by
  obtain ⟨h1, h2, h3, _⟩ := h
  rw [DirRecord.encode, length_encodeCentralDirectoryEntry _ _ _ h1 h2 h3]
  omega

/-- The loop of `readCentralDirectory` over a complete directory followed by
four bytes that are not the entry magic. -/
theorem readCentralDirectoryLoop_directory (rs : List DirRecord) (v : Nat) (rest : List Byte)
    (hv : v < 4294967296) (hne : v ≠ CDIR_ENTRY_SIG) (hwf : ∀ r ∈ rs, r.wellFormed)
    (m : CDirMap) (s : WPXInputStream) (fuel : Nat)
    (hm : m ≠ [] ∨ rs ≠ [])
    (hr : Rem s (encodeDirectory rs ++ (le32 v ++ rest)))
    (hf : s.data.length - s.pos < fuel) :
    ∃ s1, readCentralDirectoryLoop fuel m s =
        some (true, rs.foldl (fun m r => mapInsert r.entry.filename r.entry m) m, s1) ∧
      s1.data = s.data ∧ Rem s1 rest := by
  induction rs generalizing m s fuel with
  | nil =>
    cases fuel with
    | zero => omega
    | succ f =>
      have hm1 : m ≠ [] := by
        rcases hm with h | h
        · exact h
        · exact absurd rfl h
      simp only [encodeDirectory, List.nil_append] at hr
      exact readCentralDirectoryLoop_stop hv hne hr f m hm1
  | cons r rs ih =>
    cases fuel with
    | zero => omega
    | succ f =>
      have hwr := hwf r (List.mem_cons_self _ _)
      obtain ⟨h1, h2, h3, h4, h5, h6⟩ := hwr
      simp only [encodeDirectory, List.append_assoc] at hr
      obtain ⟨s1, e1, d1, r1⟩ := readCentralDirectoryLoop_entry h4 h1 h2 h3 h5 h6 hr f m
      have hlen := hr.length_eq
      have hlen1 := r1.length_eq
      have hpos := length_encode_pos r ⟨h1, h2, h3, h4, h5, h6⟩
      rw [d1] at hlen1
      simp only [List.length_append] at hlen hlen1
      obtain ⟨s2, e2, d2, r2⟩ := ih (fun r1 hr1 => hwf r1 (List.mem_cons_of_mem _ hr1))
        (mapInsert r.entry.filename r.entry m) s1 f (Or.inl (mapInsert_ne_nil _ _ _)) r1
        (by rw [d1]; omega)
      exact ⟨s2, by rw [e1, e2, List.foldl_cons], by rw [d2, d1], r2⟩

theorem strLt_trans (a b c : List Byte) (h1 : strLt a b = true) (h2 : strLt b c = true) :
    strLt a c = true := by
  induction a generalizing b c with
  | nil =>
    cases b with
    | nil => simp only [strLt] at h1; exact Bool.noConfusion h1
    | cons y ys =>
      cases c with
      | nil => simp only [strLt] at h2; exact Bool.noConfusion h2
      | cons z zs => rfl
  | cons x xs ih =>
    cases b with
    | nil => simp only [strLt] at h1; exact Bool.noConfusion h1
    | cons y ys =>
      cases c with
      | nil => simp only [strLt] at h2; exact Bool.noConfusion h2
      | cons z zs =>
        simp only [strLt] at h1 h2 ⊢
        by_cases hxy : x.val < y.val
        · by_cases hyz : y.val < z.val
          · have : x.val < z.val := by omega
            simp only [this, if_true]
          · simp only [hyz, if_false] at h2
            by_cases hzy : z.val < y.val
            · simp only [hzy, if_true] at h2; exact Bool.noConfusion h2
            · have : x.val < z.val := by omega
              simp only [this, if_true]
        · simp only [hxy, if_false] at h1
          by_cases hyx : y.val < x.val
          · simp only [hyx, if_true] at h1; exact Bool.noConfusion h1
          · simp only [hyx, if_false] at h1
            by_cases hyz : y.val < z.val
            · have : x.val < z.val := by omega
              simp only [this, if_true]
            · simp only [hyz, if_false] at h2
              by_cases hzy : z.val < y.val
              · simp only [hzy, if_true] at h2; exact Bool.noConfusion h2
              · simp only [hzy, if_false] at h2
                have h3 : ¬ x.val < z.val := by omega
                have h4 : ¬ z.val < x.val := by omega
                simp only [h3, h4, if_false]
                exact ih ys zs h1 h2

theorem mem_mapInsert (k : List Byte) (v : CentralDirectoryEntry) (m : CDirMap)
    (x : List Byte × CentralDirectoryEntry) (h : x ∈ mapInsert k v m) : x = (k, v) ∨ x ∈ m := by
  induction m with
  | nil =>
    simp only [mapInsert, List.mem_singleton] at h
    exact Or.inl h
  | cons kv rest ih =>
    obtain ⟨k1, v1⟩ := kv
    simp only [mapInsert] at h
    cases h1 : strLt k k1 with
    | true =>
      simp only [h1, if_true, List.mem_cons] at h
      rcases h with h | h | h
      · exact Or.inl h
      · exact Or.inr (List.mem_cons.2 (Or.inl h))
      · exact Or.inr (List.mem_cons.2 (Or.inr h))
    | false =>
      simp only [h1, Bool.false_eq_true, if_false] at h
      cases h2 : strLt k1 k with
      | true =>
        simp only [h2, if_true, List.mem_cons] at h
        rcases h with h | h
        · exact Or.inr (List.mem_cons.2 (Or.inl h))
        · rcases ih h with h | h
          · exact Or.inl h
          · exact Or.inr (List.mem_cons.2 (Or.inr h))
      | false =>
        simp only [h2, Bool.false_eq_true, if_false, List.mem_cons] at h
        rcases h with h | h
        · exact Or.inl h
        · exact Or.inr (List.mem_cons.2 (Or.inr h))

/-- Insertion keeps the keys strictly increasing. -/
theorem mapOrdered_mapInsert (k : List Byte) (v : CentralDirectoryEntry) (m : CDirMap)
    (h : mapOrdered m) : mapOrdered (mapInsert k v m) := by
  induction m with
  | nil => simp [mapOrdered, mapInsert]
  | cons kv rest ih =>
    obtain ⟨k1, v1⟩ := kv
    have h0 := h
    simp only [mapOrdered, List.pairwise_cons] at h
    obtain ⟨hhead, htail⟩ := h
    simp only [mapInsert]
    cases h1 : strLt k k1 with
    | true =>
      simp only [if_true]
      simp only [mapOrdered, List.pairwise_cons]
      refine ⟨fun x hx => ?_, hhead, htail⟩
      rcases List.mem_cons.1 hx with hx | hx
      · rw [hx]; exact h1
      · exact strLt_trans _ _ _ h1 (hhead x hx)
    | false =>
      simp only [Bool.false_eq_true, if_false]
      cases h2 : strLt k1 k with
      | true =>
        simp only [if_true]
        simp only [mapOrdered, List.pairwise_cons]
        refine ⟨fun x hx => ?_, ih htail⟩
        rcases mem_mapInsert k v rest x hx with hx | hx
        · rw [hx]; exact h2
        · exact hhead x hx
      | false =>
        simp only [Bool.false_eq_true, if_false]
        have hk : k = k1 := strLt_connex k k1 h1 h2
        simp only [mapOrdered, List.pairwise_cons]
        exact ⟨fun x hx => by rw [hk]; exact hhead x hx, htail⟩

theorem mapFind_cons (k1 : List Byte) (v1 : CentralDirectoryEntry) (rest : CDirMap)
    (n : List Byte) :
    mapFind ((k1, v1) :: rest) n = if k1 = n then some v1 else mapFind rest n := by
  by_cases hk : k1 = n
  · simp [mapFind, hk]
  · simp [mapFind, hk]

theorem mapFind_mapInsert (k : List Byte) (v : CentralDirectoryEntry) (m : CDirMap)
    (n : List Byte) :
    mapFind (mapInsert k v m) n = if k = n then some v else mapFind m n := by
  induction m with
  | nil =>
    rw [mapInsert, mapFind_cons]
  | cons kv rest ih =>
    obtain ⟨k1, v1⟩ := kv
    simp only [mapInsert]
    cases h1 : strLt k k1 with
    | true =>
      simp only [if_true]
      rw [mapFind_cons]
    | false =>
      simp only [Bool.false_eq_true, if_false]
      cases h2 : strLt k1 k with
      | true =>
        simp only [if_true]
        have hne : k1 ≠ k := by
          intro he; rw [he, strLt_irrefl] at h2; exact Bool.noConfusion h2
        rw [mapFind_cons, mapFind_cons, ih]
        by_cases hk1 : k1 = n
        · have hkn : ¬ k = n := fun he => hne (hk1.trans he.symm)
          simp only [hk1, if_true, hkn, if_false]
        · simp only [hk1, if_false]
      | false =>
        simp only [Bool.false_eq_true, if_false]
        have hk : k = k1 := strLt_connex k k1 h1 h2
        subst hk
        rw [mapFind_cons, mapFind_cons]
        by_cases hkn : k = n
        · simp only [hkn, if_true]
        · simp only [hkn, if_false]

theorem mapFind_foldl (es : List CentralDirectoryEntry) (m : CDirMap) (n : List Byte) :
    mapFind (es.foldl (fun m e => mapInsert e.filename e m) m) n =
      match lastNamed es n with
      | some e => some e
      | none => mapFind m n := by
  induction es generalizing m with
  | nil => simp [lastNamed]
  | cons e es ih =>
    rw [List.foldl_cons, ih, mapFind_mapInsert]
    simp only [lastNamed, List.reverse_cons, List.find?_append]
    cases h : es.reverse.find? (fun e => e.filename == n) with
    | some e1 => simp
    | none =>
      by_cases hk : e.filename = n
      · simp [hk]
      · simp [hk]

theorem mapOrdered_foldl (es : List CentralDirectoryEntry) (m : CDirMap) (h : mapOrdered m) :
    mapOrdered (es.foldl (fun m e => mapInsert e.filename e m) m) := by
  induction es generalizing m with
  | nil => exact h
  | cons e es ih => exact ih _ (mapOrdered_mapInsert _ _ _ h)

theorem foldl_map_entry (rs : List DirRecord) (m : CDirMap) :
    rs.foldl (fun m r => mapInsert r.entry.filename r.entry m) m =
      (rs.map DirRecord.entry).foldl (fun m e => mapInsert e.filename e m) m := by
  induction rs generalizing m with
  | nil => rfl
  | cons r rs ih => simp only [List.foldl_cons, List.map_cons, ih]

theorem foldl_mapInsert_ne_nil (es : List CentralDirectoryEntry) (m : CDirMap)
    (h : m ≠ [] ∨ es ≠ []) : es.foldl (fun m e => mapInsert e.filename e m) m ≠ [] := by
  induction es generalizing m with
  | nil =>
    rcases h with h | h
    · exact h
    · exact absurd rfl h
  | cons e es ih => exact ih _ (Or.inl (mapInsert_ne_nil _ _ _))

/-- C13: for every byte source that holds, at `cdir_offset`, `k ≥ 1` complete
directory entries (magic, flags at +8, compression at +10, CRC-32 at +16, sizes
at +20 and +24, name, extra and comment lengths at +28, +30, +32, local-header
offset at +42, name at +46, then extra and comment bytes) followed by four
bytes that are not the entry magic, `readCentralDirectory` on an empty table
returns true, and the table is the one obtained by inserting the `k` decoded
entries in file order keyed by name: its keys increase, and under every name it
holds the last entry in file order of that name.  The bytes `rest` after the
four bytes play no part. -/
theorem readCentralDirectory_spec (rs : List DirRecord) (v : Nat) (p rest : List Byte)
    (cdend : CentralDirectoryEnd) (z : CDRZipStreamImpl)
    (hk : rs ≠ []) (hwf : ∀ r ∈ rs, r.wellFormed)
    (hv : v < 4294967296) (hne : v ≠ CDIR_ENTRY_SIG) (hz : z.m_cdir = [])
    (hd : z.m_input.data = p ++ (encodeDirectory rs ++ (le32 v ++ rest)))
    (ho : cdend.cdir_offset = p.length) :
    ∃ s1, readCentralDirectory cdend z =
        (true, { z with m_input := s1, m_cdir := tableOf (rs.map DirRecord.entry) }) ∧
      s1.data = z.m_input.data ∧ s1.data.drop s1.pos = rest ∧
      tableOf (rs.map DirRecord.entry) ≠ [] ∧
      mapOrdered (tableOf (rs.map DirRecord.entry)) ∧
      ∀ n, mapFind (tableOf (rs.map DirRecord.entry)) n = lastNamed (rs.map DirRecord.entry) n := by
  obtain ⟨d0, r0⟩ := rem_seekSet_at hd ho
  obtain ⟨s1, e1, d1, r1⟩ := readCentralDirectoryLoop_directory rs v rest hv hne hwf []
    (z.m_input.seekSet cdend.cdir_offset) ((z.m_input.seekSet cdend.cdir_offset).data.length + 1)
    (Or.inr hk) r0 (by omega)
  rw [foldl_map_entry] at e1
  refine ⟨s1, ?_, by rw [d1, d0], r1.1, ?_, ?_, fun n => ?_⟩
  · simp only [readCentralDirectory, hz, e1, tableOf]
  · exact foldl_mapInsert_ne_nil _ _ (Or.inr (by simpa using hk))
  · exact mapOrdered_foldl _ _ (by simp [mapOrdered])
  · rw [tableOf, mapFind_foldl]
    cases lastNamed (rs.map DirRecord.entry) n <;> rfl

set_option maxRecDepth 100000 in
/-- Witness of C13: a directory with the names "b", "a", "b" at offset 1 of its
source; the table holds "a" and the second "b". -/
theorem readCentralDirectory_spec_witness :
    tableOf (sampleDirectory.map DirRecord.entry) =
      [([0x61], (sampleRecord [0x61] 2).entry), ([0x62], (sampleRecord [0x62] 3).entry)] ∧
    ∃ s1, readCentralDirectory { cdir_size := 0, cdir_offset := 1 }
        (CDRZipStreamImpl.new (streamOf sampleDirectorySource)) =
        (true, { CDRZipStreamImpl.new (streamOf sampleDirectorySource) with
                 m_input := s1, m_cdir := tableOf (sampleDirectory.map DirRecord.entry) }) ∧
      s1.data = (CDRZipStreamImpl.new (streamOf sampleDirectorySource)).m_input.data ∧
      s1.data.drop s1.pos = [7, 7] ∧
      tableOf (sampleDirectory.map DirRecord.entry) ≠ [] ∧
      mapOrdered (tableOf (sampleDirectory.map DirRecord.entry)) ∧
      ∀ n, mapFind (tableOf (sampleDirectory.map DirRecord.entry)) n =
        lastNamed (sampleDirectory.map DirRecord.entry) n :=
  ⟨by decide,
   readCentralDirectory_spec sampleDirectory CDIR_END_SIG [0xaa] [7, 7]
    { cdir_size := 0, cdir_offset := 1 } (CDRZipStreamImpl.new (streamOf sampleDirectorySource))
    (by decide) (by decide) (by decide) (by decide) rfl rfl rfl⟩

/-! ## The end-of-directory scan as a whole (C12) -/

/-- The scan, by whether the magic occurs at or after the cursor. -/
theorem findLoop_spec (fuel : Nat) (s : WPXInputStream) (hf : s.data.length - s.pos < fuel) :
    (∃ p s1, s.pos ≤ p ∧ endSigAt s.data p = true ∧
      (∀ q, s.pos ≤ q → q < p → endSigAt s.data q = false) ∧
      findLoop fuel s = some (some (p % 2 ^ 32), s1) ∧ s1.data = s.data ∧ s1.pos = p) ∨
    ((∀ p, s.pos ≤ p → endSigAt s.data p = false) ∧
      ∃ s1, findLoop fuel s = some (none, s1) ∧ s1.data = s.data) := by
  by_cases hex : ∃ p, s.pos ≤ p ∧ endSigAt s.data p = true
  · left
    have hspec := Nat.find_spec hex
    have hmin := fun q (hq : q < Nat.find hex) => Nat.find_min hex hq
    have hb := endSigAt_bound hspec.2
    obtain ⟨s1, e1, d1, p1⟩ := findLoop_found (Nat.find hex) fuel s hspec.2 hspec.1
      (fun q h1 h2 => by
        cases hc : endSigAt s.data q with
        | false => rfl
        | true => exact absurd ⟨h1, hc⟩ (hmin q h2))
      (by omega)
    exact ⟨Nat.find hex, s1, hspec.1, hspec.2, fun q h1 h2 => by
        cases hc : endSigAt s.data q with
        | false => rfl
        | true => exact absurd ⟨h1, hc⟩ (hmin q h2), e1, d1, p1⟩
  · right
    have hno : ∀ p, s.pos ≤ p → endSigAt s.data p = false := by
      intro p hp
      cases hc : endSigAt s.data p with
      | false => rfl
      | true => exact absurd ⟨p, hp, hc⟩ hex
    obtain ⟨s1, e1, d1⟩ := findLoop_absent fuel s hno hf
    exact ⟨hno, s1, e1, d1⟩

/-- C12 (amended): for every finite byte source and start offset
`m_cdir_offset`, the scan of `findCentralDirectoryEnd` ends within its budget,
and the function returns true if and only if the bytes 50 4B 05 06 begin at
some offset `p` at or after the start offset; on success the cursor is left at
the smallest such `p` (at any alignment) and `m_cdir_offset` is that `p`
reduced modulo 2^32, hence `p` itself whenever `p` is below 4 GiB; on failure
`m_cdir_offset` is unchanged; and a probe that reads four bytes other than the
magic continues the scan one byte further. -/
theorem findCentralDirectoryEnd_spec (z : CDRZipStreamImpl) :
    findLoop ((z.m_input.seekSet z.m_cdir_offset).data.length + 1)
      (z.m_input.seekSet z.m_cdir_offset) ≠ none ∧
    ((findCentralDirectoryEnd z).1 = true ↔
      ∃ p, z.m_cdir_offset ≤ p ∧ endSigAt z.m_input.data p = true) ∧
    ((findCentralDirectoryEnd z).1 = true →
      ∃ p, z.m_cdir_offset ≤ p ∧ endSigAt z.m_input.data p = true ∧
        (∀ q, z.m_cdir_offset ≤ q → q < p → endSigAt z.m_input.data q = false) ∧
        (findCentralDirectoryEnd z).2.m_input.pos = p ∧
        (findCentralDirectoryEnd z).2.m_cdir_offset = p % 2 ^ 32 ∧
        (p < 2 ^ 32 → (findCentralDirectoryEnd z).2.m_cdir_offset = p)) ∧
    ((findCentralDirectoryEnd z).1 = false →
      (findCentralDirectoryEnd z).2.m_cdir_offset = z.m_cdir_offset) ∧
    (∀ (fuel : Nat) (s s1 : WPXInputStream) (v : Nat),
      readU32 s = .ok v s1 → v ≠ CDIR_END_SIG →
      findLoop (fuel + 1) s = findLoop fuel (s1.seekCur (-3)) ∧
      (s1.seekCur (-3)).pos = s.pos + 1 ∧ (s1.seekCur (-3)).data = s.data) := by
  have hd : (z.m_input.seekSet z.m_cdir_offset).data = z.m_input.data := rfl
  have hp : (z.m_input.seekSet z.m_cdir_offset).pos = min z.m_cdir_offset z.m_input.data.length :=
    rfl
  have hfuel := findLoop_fuel ((z.m_input.seekSet z.m_cdir_offset).data.length + 1)
    (z.m_input.seekSet z.m_cdir_offset) (by omega)
  refine ⟨hfuel, ?_, ?_, ?_, ?_⟩
  · rcases findLoop_spec ((z.m_input.seekSet z.m_cdir_offset).data.length + 1)
      (z.m_input.seekSet z.m_cdir_offset) (by omega) with
      ⟨p, s1, h1, h2, _, e1, _, _⟩ | ⟨hno, s1, e1, _⟩
    · have hb := endSigAt_bound h2
      rw [hd] at h2 hb
      simp only [findCentralDirectoryEnd, e1, true_iff]
      exact ⟨p, by rw [hp] at h1; omega, h2⟩
    · simp only [findCentralDirectoryEnd, e1, Bool.false_eq_true, false_iff, not_exists, not_and]
      intro p h1 h2
      have hb := endSigAt_bound h2
      have := hno p (by rw [hp]; omega)
      rw [hd, h2] at this
      exact Bool.noConfusion this
  · intro ht
    rcases findLoop_spec ((z.m_input.seekSet z.m_cdir_offset).data.length + 1)
      (z.m_input.seekSet z.m_cdir_offset) (by omega) with
      ⟨p, s1, h1, h2, h3, e1, d1, p1⟩ | ⟨_, s1, e1, _⟩
    · have hb := endSigAt_bound h2
      rw [hd] at h2 hb h3
      rw [hp] at h1 h3
      refine ⟨p, by omega, h2, fun q hq1 hq2 => h3 q (by omega) hq2, ?_, ?_, fun hlt => ?_⟩
      · simp only [findCentralDirectoryEnd, e1, p1]
      · simp only [findCentralDirectoryEnd, e1]
      · simp only [findCentralDirectoryEnd, e1]
        exact Nat.mod_eq_of_lt hlt
    · simp only [findCentralDirectoryEnd, e1] at ht
      exact Bool.noConfusion ht
  · intro hf
    rcases findLoop_spec ((z.m_input.seekSet z.m_cdir_offset).data.length + 1)
      (z.m_input.seekSet z.m_cdir_offset) (by omega) with
      ⟨p, s1, _, _, _, e1, _, _⟩ | ⟨_, s1, e1, _⟩
    · simp only [findCentralDirectoryEnd, e1] at hf
      exact Bool.noConfusion hf
    · simp only [findCentralDirectoryEnd, e1]
  · intro fuel s s1 v hr hv
    obtain ⟨d1, _, q1, p1⟩ := readU32_ok_adv hr
    have hnE : s.atEOS = false := by
      simp only [WPXInputStream.atEOS, decide_eq_false_iff_not]
      rw [d1] at q1; omega
    obtain ⟨d2, p2⟩ := seekCur_neg3 p1 (by rw [d1] at q1 ⊢; omega)
    refine ⟨?_, p2, by rw [d2, d1]⟩
    rw [findLoop]
    simp only [hnE, hr, Bool.false_eq_true, if_false, hv]

theorem endSigAt_zerosThenMagic (n : Nat) :
    endSigAt (zerosThenMagic n) n = true ∧
    ∀ q, q < n → endSigAt (zerosThenMagic n) q = false := by
  constructor
  · have h : (zerosThenMagic n).drop n = le32 CDIR_END_SIG := by
      rw [zerosThenMagic]
      exact List.drop_left' (List.length_replicate _ _)
    rw [endSigAt, h]
    rfl
  · intro q hq
    obtain ⟨m, hm⟩ : ∃ m, n - q = m + 1 := ⟨n - q - 1, by omega⟩
    have h : (zerosThenMagic n).drop q = (0 : Byte) :: (List.replicate m 0 ++ le32 CDIR_END_SIG) := by
      rw [zerosThenMagic, List.drop_append_of_le_length (by rw [List.length_replicate]; omega),
        List.drop_replicate, hm, List.replicate_succ, List.cons_append]
    rw [endSigAt, h]
    simp only [List.take_succ_cons, le32]
    rfl

/-- The scan over `n` zero bytes followed by the magic. -/
theorem findCentralDirectoryEnd_zerosThenMagic (n : Nat) :
    (findCentralDirectoryEnd (CDRZipStreamImpl.new (streamOf (zerosThenMagic n)))).1 = true ∧
    (findCentralDirectoryEnd (CDRZipStreamImpl.new (streamOf (zerosThenMagic n)))).2.m_cdir_offset
      = n % 2 ^ 32 := by
  obtain ⟨h1, h2⟩ := endSigAt_zerosThenMagic n
  have hlen : (zerosThenMagic n).length = n + 4 := by
    simp only [zerosThenMagic, List.length_append, List.length_replicate, le32,
      List.length_cons, List.length_nil]
  obtain ⟨s1, e1, _, _⟩ := findLoop_found n ((zerosThenMagic n).length + 1)
    ((streamOf (zerosThenMagic n)).seekSet 0) h1
    (by simp only [WPXInputStream.seekSet]; omega)
    (fun q _ hq => h2 q hq) (by rw [hlen]; simp only [WPXInputStream.seekSet]; omega)
  have hfind : findCentralDirectoryEnd (CDRZipStreamImpl.new (streamOf (zerosThenMagic n))) =
      (true, { m_input := s1, m_cdir_offset := n % 2 ^ 32, m_cdir := [],
               m_initialized := false }) := by
    simp only [findCentralDirectoryEnd, CDRZipStreamImpl.new]
    rw [show ((streamOf (zerosThenMagic n)).seekSet 0).data = zerosThenMagic n from rfl, e1]
  rw [hfind]
  exact ⟨rfl, rfl⟩

/-- Counterexample to C12 as stated: on the source of 4294967296 zero bytes
followed by the magic, the magic begins at offset 4294967296 and nowhere
before, the scan succeeds, and `m_cdir_offset` is 0, not that offset. -/
theorem findCentralDirectoryEnd_offset_wraps :
    endSigAt (zerosThenMagic 4294967296) 4294967296 = true ∧
    (∀ q, q < 4294967296 → endSigAt (zerosThenMagic 4294967296) q = false) ∧
    (findCentralDirectoryEnd
      (CDRZipStreamImpl.new (streamOf (zerosThenMagic 4294967296)))).1 = true ∧
    (findCentralDirectoryEnd
      (CDRZipStreamImpl.new (streamOf (zerosThenMagic 4294967296)))).2.m_cdir_offset = 0 :=
  ⟨(endSigAt_zerosThenMagic 4294967296).1, (endSigAt_zerosThenMagic 4294967296).2,
   (findCentralDirectoryEnd_zerosThenMagic 4294967296).1,
   (findCentralDirectoryEnd_zerosThenMagic 4294967296).2.trans (by decide)⟩

set_option maxRecDepth 100000 in
/-- Witness of C12: on the "meta" archive the scan from offset 0 succeeds and
stops at some offset that holds the magic, with no magic before it, and
`m_cdir_offset` becomes 87. -/
theorem findCentralDirectoryEnd_spec_witness :
    (findCentralDirectoryEnd (CDRZipStreamImpl.new (streamOf metaArchive))).2.m_cdir_offset = 87 ∧
    ∃ p, (CDRZipStreamImpl.new (streamOf metaArchive)).m_cdir_offset ≤ p ∧
      endSigAt (CDRZipStreamImpl.new (streamOf metaArchive)).m_input.data p = true ∧
      (∀ q, (CDRZipStreamImpl.new (streamOf metaArchive)).m_cdir_offset ≤ q → q < p →
        endSigAt (CDRZipStreamImpl.new (streamOf metaArchive)).m_input.data q = false) ∧
      (findCentralDirectoryEnd (CDRZipStreamImpl.new (streamOf metaArchive))).2.m_input.pos = p ∧
      (findCentralDirectoryEnd (CDRZipStreamImpl.new (streamOf metaArchive))).2.m_cdir_offset
        = p % 2 ^ 32 ∧
      (p < 2 ^ 32 →
        (findCentralDirectoryEnd (CDRZipStreamImpl.new (streamOf metaArchive))).2.m_cdir_offset
          = p) :=
  ⟨by decide,
   (findCentralDirectoryEnd_spec (CDRZipStreamImpl.new (streamOf metaArchive))).2.2.1
    (by decide)⟩

/-! ## Failures of the directory reader and of the extraction (C15, C16, C18, C19) -/

set_option maxRecDepth 100000 in
/-- C15 fails on the code: on the source that is one end record whose
directory offset is the end of the source, the end record is read, the loop of
`readCentralDirectory` is never entered, the function returns true with an
empty table, and `isZipStream` goes on to dereference `m_cdir.begin()`. -/
theorem readCentralDirectory_true_with_empty_table :
    emptyDirectoryArchive.length = 22 ∧
    (readCentralDirectoryEnd (streamOf emptyDirectoryArchive)).1 =
      some { cdir_size := 0, cdir_offset := 22 } ∧
    (readCentralDirectory { cdir_size := 0, cdir_offset := 22 }
      (CDRZipStreamImpl.new (streamOf emptyDirectoryArchive))).1 = true ∧
    (readCentralDirectory { cdir_size := 0, cdir_offset := 22 }
      (CDRZipStreamImpl.new (streamOf emptyDirectoryArchive))).2.m_cdir = [] ∧
    isZipStream (CDRZipStreamImpl.new (streamOf emptyDirectoryArchive)) = none := by
  decide

set_option maxRecDepth 100000 in
/-- C16 fails on the code: on the archive whose second directory entry is cut
short by the end record, `readCentralDirectory` returns false and the table
still holds the first entry; the next `isZipStream` call then answers true. -/
theorem readCentralDirectory_false_keeps_entries :
    (readCentralDirectory { cdir_size := 54, cdir_offset := 37 }
      (CDRZipStreamImpl.new (streamOf brokenSecondEntryArchive))).1 = false ∧
    (readCentralDirectory { cdir_size := 54, cdir_offset := 37 }
      (CDRZipStreamImpl.new (streamOf brokenSecondEntryArchive))).2.m_cdir =
      [(metaName, soleEntry 0 0 0x55bc801d 3 metaName [1, 2, 3])] ∧
    (isZipStreamCalls 2 (CDRZipStreamImpl.new (streamOf brokenSecondEntryArchive))).map
      Prod.fst = some [false, true] := by
  decide

set_option maxRecDepth 100000 in
/-- C18 fails on the code: on the source that ends inside the name field of its
directory entry (name length field 4, two name bytes present),
`readCentralDirectory` returns true and inserts the entry under the two-byte
key "me"; `isZipStream` accepts the source. -/
theorem readCentralDirectory_short_name_accepted :
    truncatedNameArchive.length = 59 + 46 + 2 ∧
    (truncatedNameArchive.drop (59 + 28)).take 2 = le16 4 ∧
    (readCentralDirectory { cdir_size := 50, cdir_offset := 59 }
      (CDRZipStreamImpl.new (streamOf truncatedNameArchive))).1 = true ∧
    (readCentralDirectory { cdir_size := 50, cdir_offset := 59 }
      (CDRZipStreamImpl.new (streamOf truncatedNameArchive))).2.m_cdir.map Prod.fst =
      [[0x6d, 0x65]] ∧
    (isZipStream (CDRZipStreamImpl.new (streamOf truncatedNameArchive))).map Prod.fst =
      some true := by
  decide

set_option maxRecDepth 100000 in
/-- C19 fails on the code: on the archive whose headers record the
uncompressed size 2 for the encoding of 01 02 03, `inflate` fills the two bytes
and reports a buffer error, and `getDocumentOLEStream` returns the partial
buffer 01 02. -/
theorem getSubstream_returns_partial_buffer :
    storedZlib.inflate (storedDeflate [1, 2, 3]) 2 = (Z_BUF_ERROR, [1, 2]) ∧
    (getDocumentOLEStream storedZlib (CDRZipStreamImpl.new (streamOf shortOutputArchive))
      metaName).map Prod.fst = some (some { m_buffer := [1, 2] }) := by
  decide

/-! ## Short sources in the local header reader (C17) -/

theorem readU16_ok_pos {s s1 : WPXInputStream} {v : Nat} (h : readU16 s = .ok v s1) :
    s1.data = s.data ∧ s1.pos = s.pos + 2 ∧ s1.pos ≤ s1.data.length := by
  unfold readU16 at h
  by_cases hE : s.atEOS = true
  · simp only [hE, if_true] at h; exact Res.noConfusion h
  · have hE1 : s.atEOS = false := by simpa using hE
    simp only [hE1, Bool.false_eq_true, if_false, WPXInputStream.read] at h
    have hl : ((s.data.drop s.pos).take 2).length ≤ s.data.length - s.pos := by
      simp only [List.length_take, List.length_drop]; omega
    have hp : s.pos < s.data.length := by
      simpa [WPXInputStream.atEOS] using hE
    generalize (s.data.drop s.pos).take 2 = bs at h hl
    rcases bs with _ | ⟨b0, _ | ⟨b1, _ | ⟨b2, t⟩⟩⟩
    · exact Res.noConfusion h
    · exact Res.noConfusion h
    · simp only [Bool.false_eq_true, if_false, Res.ok.injEq] at h
      obtain ⟨_, hs⟩ := h
      subst hs
      refine ⟨rfl, rfl, ?_⟩
      simp only [List.length_cons, List.length_nil] at hl ⊢
      omega
    · exact Res.noConfusion h

/-- A local header that is read has its 30 fixed bytes inside the source. -/
theorem readLocalFileHeaderBody_some {s s1 : WPXInputStream} {h : LocalFileHeader}
    (hb : readLocalFileHeaderBody s = .ok (some h) s1) : s.pos + 30 ≤ s.data.length := by
  unfold readLocalFileHeaderBody at hb
  obtain ⟨v0, t0, e0, hb⟩ := Res.bind_eq_ok hb
  obtain ⟨d0, _, q0, p0⟩ := readU32_ok_adv e0
  by_cases hv : v0 = LOC_FILE_HEADER_SIG
  · simp only [hv, ne_eq, not_true_eq_false, if_false] at hb
    obtain ⟨v1, t1, e1, hb⟩ := Res.bind_eq_ok hb
    obtain ⟨d1, p1, q1⟩ := readU16_ok_pos e1
    obtain ⟨v2, t2, e2, hb⟩ := Res.bind_eq_ok hb
    obtain ⟨d2, p2, q2⟩ := readU16_ok_pos e2
    obtain ⟨v3, t3, e3, hb⟩ := Res.bind_eq_ok hb
    obtain ⟨d3, _, q3, p3⟩ := readU32_ok_adv e3
    obtain ⟨v4, t4, e4, hb⟩ := Res.bind_eq_ok hb
    obtain ⟨d4, _, q4, p4⟩ := readU32_ok_adv e4
    obtain ⟨v5, t5, e5, hb⟩ := Res.bind_eq_ok hb
    obtain ⟨d5, _, q5, p5⟩ := readU32_ok_adv e5
    obtain ⟨v6, t6, e6, hb⟩ := Res.bind_eq_ok hb
    obtain ⟨d6, p6, q6⟩ := readU16_ok_pos e6
    obtain ⟨v7, t7, e7, hb⟩ := Res.bind_eq_ok hb
    obtain ⟨d7, p7, q7⟩ := readU16_ok_pos e7
    have ha : (t0.seekCur 2).pos = min (t0.pos + 2) t0.data.length := by
      simp only [WPXInputStream.seekCur]; omega
    have hc : (t2.seekCur 4).pos = min (t2.pos + 4) t2.data.length := by
      simp only [WPXInputStream.seekCur]; omega
    have l0 : t0.data.length = s.data.length := by rw [d0]
    have l1 : t1.data.length = s.data.length := by
      rw [d1]; exact l0
    have l2 : t2.data.length = s.data.length := by rw [d2]; exact l1
    have l3 : t3.data.length = s.data.length := by
      rw [d3]; exact l2
    have l4 : t4.data.length = s.data.length := by rw [d4]; exact l3
    have l5 : t5.data.length = s.data.length := by rw [d5]; exact l4
    have l6 : t6.data.length = s.data.length := by rw [d6]; exact l5
    have l7 : t7.data.length = s.data.length := by rw [d7]; exact l6
    rw [ha] at p1
    rw [hc] at p3
    omega
  · simp only [ne_eq, hv, not_false_eq_true, if_true, Res.ok.injEq] at hb
    exact absurd hb.1 (by simp)

theorem rem_seekCur_clamp {s : WPXInputStream} {l : List Byte} (k : Int) (h : Rem s l)
    (hk : (l.length : Int) ≤ k) :
    (s.seekCur k).data = s.data ∧ (s.seekCur k).pos = s.data.length := by
  have hlen := h.length_eq
  refine ⟨rfl, ?_⟩
  simp only [WPXInputStream.seekCur]
  omega

/-- The local header reader on a source that ends inside the extra field. -/
theorem readLocalFileHeader_short_extra {s : WPXInputStream} {lver ltime part : List Byte}
    {h : LocalFileHeader} {m : Nat} (hf : h.fits) (hlv : lver.length = 2)
    (hlt : ltime.length = 4) (hm : m < 65536) (hpart : part.length ≤ m)
    (hr : Rem s (encodeLocalFileHeaderFixed lver ltime h m ++ part)) :
    ∃ s1, readLocalFileHeader s = (some h, s1) ∧ s1.data = s.data ∧
      s1.pos = s.data.length := by
  obtain ⟨f1, f2, f3, f4, f5, f6⟩ := hf
  unfold encodeLocalFileHeaderFixed at hr
  simp only [List.append_assoc] at hr
  obtain ⟨s1, e1, d1, r1⟩ := readU32_rem (by decide) hr
  obtain ⟨d2, r2⟩ := rem_seekCur 2 r1 (by rw [hlv]; rfl)
  obtain ⟨s3, e3, d3, r3⟩ := readU16_rem f1 r2
  obtain ⟨s4, e4, d4, r4⟩ := readU16_rem f2 r3
  obtain ⟨d5, r5⟩ := rem_seekCur 4 r4 (by rw [hlt]; rfl)
  obtain ⟨s6, e6, d6, r6⟩ := readU32_rem f3 r5
  obtain ⟨s7, e7, d7, r7⟩ := readU32_rem f4 r6
  obtain ⟨s8, e8, d8, r8⟩ := readU32_rem f5 r7
  obtain ⟨s9, e9, d9, r9⟩ := readU16_rem f6 r8
  obtain ⟨s10, e10, d10, r10⟩ := readU16_rem hm r9
  obtain ⟨s11, hread, d11, r11⟩ := rem_read_ex r10
  obtain ⟨d12, p12⟩ := rem_seekCur_clamp (m : Int) r11 (by exact_mod_cast hpart)
  have hdata : s11.data = s.data := by
    rw [d11, d10, d9, d8, d7, d6, d5, d4, d3, d2, d1]
  refine ⟨s11.seekCur (m : Int), ?_, ?_, ?_⟩
  · unfold readLocalFileHeader readLocalFileHeaderBody
    simp only [e1, Res.bind_ok, ne_eq, not_true_eq_false, if_false, e3, e4, e6,
      e7, e8, e9, e10, hread]
  · rw [d12, hdata]
  · rw [p12, hdata]

/-- C17 (amended): for every byte source, if the source ends before the 30
fixed bytes of the local header at the cursor are complete,
`readLocalFileHeader` returns false; if the source holds the fixed bytes and
the complete name and ends inside the extra field, `readLocalFileHeader`
returns true with the header fields and the name (the extra field is skipped
by a seek whose result is not looked at). -/
theorem readLocalFileHeader_short_source (s : WPXInputStream) :
    (s.data.length < s.pos + 30 → (readLocalFileHeader s).1 = none) ∧
    (∀ (lver ltime part : List Byte) (h : LocalFileHeader) (m : Nat),
      h.fits → lver.length = 2 → ltime.length = 4 → m < 65536 → part.length < m →
      s.data.drop s.pos = encodeLocalFileHeaderFixed lver ltime h m ++ part →
      (readLocalFileHeader s).1 = some h) := by
  refine ⟨fun hlen => ?_, fun lver ltime part h m hf hlv hlt hm hpart hd => ?_⟩
  · unfold readLocalFileHeader
    cases hb : readLocalFileHeaderBody s with
    | thrown s1 => rfl
    | ok r s1 =>
      cases r with
      | none => rfl
      | some h => have := readLocalFileHeaderBody_some hb; omega
  · have hr : Rem s (encodeLocalFileHeaderFixed lver ltime h m ++ part) := by
      have hd2 := hd
      simp only [encodeLocalFileHeaderFixed, le32, List.cons_append] at hd2
      have := rem_of_drop_cons hd2
      simpa only [encodeLocalFileHeaderFixed, le32, List.cons_append] using this
    obtain ⟨s1, e1, _, _⟩ := readLocalFileHeader_short_extra hf hlv hlt hm
      (Nat.le_of_lt hpart) hr
    rw [e1]

set_option maxRecDepth 100000 in
/-- Witness of C17: the first 29 bytes of the local header of "meta", and the
header that declares four extra-field bytes on a source that holds two. -/
theorem readLocalFileHeader_short_source_witness :
    (readLocalFileHeader (streamOf (shortNameHeader.take 29))).1 = none ∧
    (readLocalFileHeader (streamOf shortExtraHeader)).1 =
      some (soleHeader 0 0 0x55bc801d 3 metaName [1, 2, 3]) :=
  ⟨(readLocalFileHeader_short_source (streamOf (shortNameHeader.take 29))).1 (by decide),
   (readLocalFileHeader_short_source (streamOf shortExtraHeader)).2 plainSkipped.lver
      plainSkipped.ltime [9, 9] (soleHeader 0 0 0x55bc801d 3 metaName [1, 2, 3]) 4
      (by unfold LocalFileHeader.fits; decide) (by decide) (by decide) (by decide) (by decide)
      (by decide)⟩

set_option maxRecDepth 100000 in
/-- Counterexample to C17 as stated: the source starts with the local-header
magic, declares a four-byte name and a four-byte extra field and ends after
two extra-field bytes, and `readLocalFileHeader` returns true; so it does on
the source that ends after two of the four name bytes. -/
theorem readLocalFileHeader_accepts_short_source :
    shortExtraHeader.take 4 = le32 LOC_FILE_HEADER_SIG ∧
    (shortExtraHeader.drop 26).take 4 = le16 4 ++ le16 4 ∧
    shortExtraHeader.length = 30 + 4 + 2 ∧
    (readLocalFileHeader (streamOf shortExtraHeader)).1 =
      some (soleHeader 0 0 0x55bc801d 3 metaName [1, 2, 3]) ∧
    shortNameHeader.length = 30 + 2 ∧
    (shortNameHeader.drop 26).take 2 = le16 4 ∧
    (readLocalFileHeader (streamOf shortNameHeader)).1 =
      some { soleHeader 0 0 0x55bc801d 3 metaName [1, 2, 3] with filename := [0x6d, 0x65] } := by
  decide

end libcdr
